import Mathlib

/-!
Verification development for the workspace file-index and search engine of the
claude-input-enhancer repository (src/fileSearchManager.ts, class FileSearchManager).

The TypeScript engine is shallowly embedded as pure Lean functions:
* paths are workspace-relative strings using the separator character '/';
* JS `Map` and `Set` values are modelled as insertion-ordered association lists
  (matching JS iteration order);
* `Array.prototype.sort` (a stable sort driven by a comparator) is modelled with
  `List.insertionSort`, which is stable;
* time is an explicit `Nat` parameter (`Date.now()` becomes the `now` argument);
* the asynchronous filesystem collaborators (`workspace.findFiles`,
  `fs.readDirectory`) become explicit inputs of type `Except Unit _`, whose
  `error` case models a rejected promise.
-/

namespace ClaudeInputEnhancer

set_option maxRecDepth 100000
set_option linter.unusedVariables false

/-- Entry kind: the `type: 'file' | 'folder'` field of `FileSuggestion`. -/
inductive FType where
  | file : FType
  | folder : FType
deriving DecidableEq, Repr

/-- Model of the `FileSuggestion` interface of src/fileSearchManager.ts.
The optional `icon` field is always assigned by the engine, so it is a plain
`String` here. -/
structure FileSuggestion where
  name : String
  fullPath : String
  relativePath : String
  type : FType
  icon : String
deriving DecidableEq, Repr

/-- Model of the path separator `path.sep` (POSIX convention). -/
def sepChar : Char := '/'

/-- Lowercasing a string character by character: model of JS
`String.prototype.toLowerCase` (faithful on ASCII, which is all the engine
compares). -/
def lowerStr (s : String) : String := String.mk (s.data.map Char.toLower)

/-- Model of JS `String.prototype.startsWith`. -/
def strStarts (s p : String) : Bool := p.data.isPrefixOf s.data

/-- Model of JS `String.prototype.endsWith`. -/
def strEnds (s p : String) : Bool := p.data.isSuffixOf s.data

/-- Substring containment on character lists, by scanning every suffix. -/
def containsCh : List Char → List Char → Bool
  | s, p =>
    p.isPrefixOf s ||
      match s with
      | [] => false
      | _ :: t => containsCh t p

/-- Model of JS `String.prototype.includes`. -/
def strContains (s p : String) : Bool := containsCh s.data p.data

/-- Splitting a character list at every separator character; model of JS
`String.prototype.split(path.sep)` (so the empty list splits to `[[]]`, and
separators at the ends produce empty pieces, exactly as in JS). -/
def splitChars : List Char → List (List Char)
  | [] => [[]]
  | c :: cs =>
    match splitChars cs with
    | [] => [[]]
    | h :: t => if c = sepChar then [] :: h :: t else (c :: h) :: t

/-- Model of `relativePath.split(path.sep)`. -/
def splitPath (s : String) : List String := (splitChars s.data).map (fun l => String.mk l)

/-- Joining character-list segments with the separator (inverse of `splitChars`
on well-formed segment lists). -/
def joinCh : List (List Char) → List Char
  | [] => []
  | [s] => s
  | s :: t :: r => s ++ sepChar :: joinCh (t :: r)

/-- Model of `parts.join(path.sep)`. -/
def joinSegs (l : List String) : String := String.mk (joinCh (l.map String.data))

/-- Model of `path.parse(rel).dir`: everything before the last separator. -/
def parseDir (s : String) : String := joinSegs (splitPath s).dropLast

/-- Model of `path.parse(rel).base` and `path.basename`: the last segment. -/
def parseBase (s : String) : String := ((splitPath s).getLast?).getD ""

/-- Model of `path.dirname` on the relative paths the engine handles. -/
def dirname (s : String) : String :=
  if (splitPath s).length ≤ 1 then "." else parseDir s

/-- Model of `path.join` for the two-argument uses in the engine (joining
already-normalized relative segments, no `..` handling needed). -/
def joinPath (a b : String) : String :=
  if a == "" then b else if b == "" then a else a ++ "/" ++ b

/-- Extension of a basename, model of the Node `path.parse` rule: the suffix
from the last dot, empty when there is no dot or the only dot starts the name. -/
def extChars (b : List Char) : List Char :=
  let r := b.reverse.takeWhile (fun c => c != '.')
  if r.length + 2 ≤ b.length then '.' :: r.reverse else []

/-- Model of `path.parse(rel).ext`. -/
def parseExt (s : String) : String := String.mk (extChars (parseBase s).data)

/-- Model of `path.extname(name)` for bare names. -/
def extname (s : String) : String := String.mk (extChars s.data)

/-- Membership test of a JS `Map` modelled as an association list
(`map.has(k)`). -/
def mapHas {α : Type} (m : List (String × α)) (k : String) : Bool :=
  m.any (fun e => e.1 == k)

/-- Lookup in a JS `Map` modelled as an association list (`map.get(k)`). -/
def mapGet {α : Type} (m : List (String × α)) (k : String) : Option α :=
  (m.find? (fun e => e.1 == k)).map (fun e => e.2)

/-- Model of the idiom `if (!map.has(k)) map.set(k, []); map.get(k)!.push(v)`:
append `v` to the entry of `k`, creating the entry at the end when absent
(JS `Map` keeps insertion order). -/
def mapPush {α : Type} (m : List (String × List α)) (k : String) (v : α) :
    List (String × List α) :=
  if mapHas m k then m.map (fun e => if e.1 == k then (e.1, e.2 ++ [v]) else e)
  else m ++ [(k, [v])]

/-- Model of `if (!map.has(k)) map.set(k, [])`. -/
def mapAddEmpty {α : Type} (m : List (String × List α)) (k : String) :
    List (String × List α) :=
  if mapHas m k then m else m ++ [(k, [])]

/-- Model of `Set.add` on a JS `Set` of strings (insertion-ordered, no
duplicates). -/
def setAdd (s : List String) (k : String) : List String :=
  if s.contains k then s else s ++ [k]

/-- Model of `Set.delete`. -/
def setDelete (s : List String) (k : String) : List String :=
  s.filter (fun x => x != k)

/-- Three-way code-unit comparison of character lists: the order JS uses for
`Array.prototype.sort()` with no comparator on strings. -/
def cmpChars : List Char → List Char → Ordering
  | [], [] => Ordering.eq
  | [], _ :: _ => Ordering.lt
  | _ :: _, [] => Ordering.gt
  | a :: as, b :: bs =>
    if a < b then Ordering.lt else if b < a then Ordering.gt else cmpChars as bs

/-- Code-unit string comparison (default JS sort order on strings). -/
def strCmp (a b : String) : Ordering := cmpChars a.data b.data

/-- Model of JS `String.prototype.localeCompare` under the default collation
(ICU root): case-insensitive at primary strength, ties broken with lowercase
first. -/
def localeCmp (a b : String) : Ordering :=
  match cmpChars (lowerStr a).data (lowerStr b).data with
  | Ordering.eq => cmpChars b.data a.data
  | o => o

/-- Model of `Array.prototype.sort(cmp)`: a stable sort consistent with the
comparator. Realized by `List.insertionSort`, which is stable; for the
comparators the engine uses (total preorders) every stable
comparator-consistent sort produces this same list. -/
def jsSortBy {α : Type} (cmp : α → α → Ordering) (l : List α) : List α :=
  List.insertionSort (fun a b => cmp a b ≠ Ordering.gt) l

/-- The constant `MAX_RESULTS` of `FileSearchManager`. -/
def MAX_RESULTS : Nat := 50

/-- The constant `CACHE_TTL` of `FileSearchManager` (milliseconds). -/
def CACHE_TTL : Nat := 30000

/-- The constant `MAX_CACHE_FILES` of `FileSearchManager`. -/
def MAX_CACHE_FILES : Nat := 100000

/-- The `EXCLUDE_PATTERNS` list of `FileSearchManager`. -/
def EXCLUDE_PATTERNS : List String :=
  ["**/node_modules/**", "**/.git/**", "**/dist/**", "**/build/**",
   "**/.vscode-test/**", "**/coverage/**", "**/.next/**", "**/out/**",
   "**/.turbo/**", "**/.venv/**", "**/__pycache__/**", "**/target/**",
   "**/vendor/**", "**/*.min.js", "**/*.min.css"]

/-- The `iconMap` table of `getFileIcon` (string literals exactly as they
appear in the source file). -/
def iconMap : List (String × String) :=
  [(".ts", "üìò"), (".tsx", "‚öõÔ∏è"), (".js", "üìú"), (".jsx", "‚öõÔ∏è"),
   (".py", "üêç"), (".rs", "ü¶Ä"), (".go", "üêπ"), (".java", "‚òï"),
   (".cpp", "‚ö°"), (".c", "‚ö°"), (".h", "‚ö°"), (".css", "üé®"),
   (".scss", "üé®"), (".html", "üåê"), (".json", "üìã"), (".md", "üìù"),
   (".txt", "üìÑ"), (".yaml", "‚öôÔ∏è"), (".yml", "‚öôÔ∏è"), (".xml", "üìã"),
   (".svg", "üñºÔ∏è"), (".png", "üñºÔ∏è"), (".jpg", "üñºÔ∏è"),
   (".jpeg", "üñºÔ∏è"), (".gif", "üñºÔ∏è"), (".pdf", "üìï")]

/-- The folder icon literal used by the engine. -/
def folderIcon : String := "üìÅ"

/-- Model of `getFileIcon`: constant lookup keyed by the lowercased extension,
with a generic default. -/
def getFileIcon (ext : String) : String :=
  ((iconMap.find? (fun e => e.1 == lowerStr ext)).map (fun e => e.2)).getD "üìÑ"

/-- Model of the `CachedFileData` structure: the Snapshot of the spec.
`directoryMap` maps a directory relative path (or `"."` for the root) to the
files directly inside it. -/
structure CachedFileData where
  files : List FileSuggestion
  directoryMap : List (String × List FileSuggestion)
  timestamp : Nat
deriving DecidableEq, Repr

/-- The `FileSuggestion` that `buildCache` creates for one discovered file,
given the workspace root and the workspace-relative path. -/
def buildEntry (root rel : String) : FileSuggestion :=
  { name := parseBase rel
    fullPath := joinPath root rel
    relativePath := rel
    type := FType.file
    icon := getFileIcon (parseExt rel) }

/-- Accumulator of the per-URI loop of `buildCache`: the `files` array, the
`directoryMap`, and the `allFolders` set. -/
structure BuildAcc where
  files : List FileSuggestion
  dmap : List (String × List FileSuggestion)
  folders : List String
deriving Repr

/-- One iteration of the per-URI loop of `buildCache` (lines 147-182 of the
source): record the file, add it to its directory entry, and add every
ancestor directory of its path to the `allFolders` set. -/
def buildStep (root : String) (acc : BuildAcc) (rel : String) : BuildAcc :=
  let dir := parseDir rel
  let sug := buildEntry root rel
  let files := acc.files ++ [sug]
  let dirKey := if dir == "" then "." else dir
  let dmap := mapPush acc.dmap dirKey sug
  let folders :=
    if dir == "" then acc.folders
    else
      let parts := splitPath dir
      (List.range parts.length).foldl
        (fun s i => setAdd s (joinSegs (parts.take (i + 1))))
        (setAdd acc.folders dir)
  ⟨files, dmap, folders⟩

/-- Model of `buildCache` on a successful enumeration: `uris` is the list of
workspace-relative paths that `workspace.findFiles` returned, `now` the build
time. After the per-URI loop, every folder in `allFolders` receives an empty
`directoryMap` entry if it has none. -/
def buildCache (root : String) (uris : List String) (now : Nat) : CachedFileData :=
  let acc := uris.foldl (buildStep root) ⟨[], [], []⟩
  { files := acc.files
    directoryMap := acc.folders.foldl (fun m folder => mapAddEmpty m folder) acc.dmap
    timestamp := now }

/-- The scope filter used by both loops of `filterFromCache` (lines 461-465 and
508-512): with a non-empty `currentPath`, only paths inside that subtree (or
equal to it) pass. -/
def scopePasses (currentPath rel : String) : Bool :=
  if currentPath == "" then true
  else strStarts rel (currentPath ++ "/") || rel == currentPath

/-- The match test of the file loop of `filterFromCache` (lines 471-491, the
`matched` logic): the lowercased file name contains the query, or some path
segment does. -/
def fileHit (lowerQuery : String) (f : FileSuggestion) : Bool :=
  strContains (lowerStr f.name) lowerQuery ||
    (splitPath f.relativePath).any (fun part => strContains (lowerStr part) lowerQuery)

/-- The first loop of `filterFromCache` (lines 459-497): scan the cached files
in order, keep those matching the query by file name or by some path segment,
deduplicated by relative path, and stop as soon as `MAX_RESULTS` results are
collected. Returns the results array and the `seenFilePaths` set. -/
def collectFileMatches (lowerQuery currentPath : String) :
    List FileSuggestion → List FileSuggestion → List String →
    List FileSuggestion × List String
  | [], results, seen => (results, seen)
  | f :: rest, results, seen =>
    if !(scopePasses currentPath f.relativePath) then
      collectFileMatches lowerQuery currentPath rest results seen
    else
      let step :=
        if fileHit lowerQuery f && !(seen.contains f.relativePath) then
          (results ++ [f], seen ++ [f.relativePath])
        else (results, seen)
      if MAX_RESULTS ≤ step.1.length then step
      else collectFileMatches lowerQuery currentPath rest step.1 step.2

/-- The folder suggestion object pushed by `filterFromCache` (lines 527-533)
and `getDirectoryContents` (lines 374-380). -/
def folderSuggestion (root rel nm : String) : FileSuggestion :=
  { name := nm
    fullPath := joinPath root rel
    relativePath := rel
    type := FType.folder
    icon := folderIcon }

/-- The inner loop of the folder pass of `filterFromCache` (lines 518-537):
walk the directory prefixes of one file path (excluding the leaf), and push
every prefix that is a known directory whose segment name matches the query,
deduplicated through `seenDirs`. -/
def folderScanFile (root lowerQuery : String)
    (dmap : List (String × List FileSuggestion)) (pathParts : List String)
    (acc : List FileSuggestion × List String) :
    List FileSuggestion × List String :=
  (List.range (pathParts.length - 1)).foldl
    (fun acc2 i =>
      let dirPart := pathParts.getD i ""
      let dirPathSoFar := joinSegs (pathParts.take (i + 1))
      if mapHas dmap dirPathSoFar then
        if strContains (lowerStr dirPart) lowerQuery && !(acc2.2.contains dirPathSoFar) then
          (acc2.1 ++ [folderSuggestion root dirPathSoFar dirPart], acc2.2 ++ [dirPathSoFar])
        else acc2
      else acc2)
    acc

/-- The second loop of `filterFromCache` (lines 501-539): per cached file,
stop when `MAX_RESULTS` results are already collected, apply the scope filter,
then scan the directory prefixes of the path. -/
def collectFolderMatches (root lowerQuery currentPath : String)
    (dmap : List (String × List FileSuggestion)) :
    List FileSuggestion → List FileSuggestion × List String →
    List FileSuggestion × List String
  | [], acc => acc
  | f :: rest, acc =>
    if MAX_RESULTS ≤ acc.1.length then acc
    else if !(scopePasses currentPath f.relativePath) then
      collectFolderMatches root lowerQuery currentPath dmap rest acc
    else
      collectFolderMatches root lowerQuery currentPath dmap rest
        (folderScanFile root lowerQuery dmap (splitPath f.relativePath) acc)

/-- The unsorted candidate list of `filterFromCache`: file matches followed by
folder matches. -/
def searchCandidates (root : String) (cache : CachedFileData)
    (query currentPath : String) : List FileSuggestion :=
  let lowerQuery := lowerStr query
  let fileAcc := collectFileMatches lowerQuery currentPath cache.files [] []
  (collectFolderMatches root lowerQuery currentPath cache.directoryMap
      cache.files (fileAcc.1, [])).1

/-- The ranking comparator of `filterFromCache` (lines 542-552): exact
case-insensitive name match first, then folders before files, then name order
by `localeCompare`. -/
def rankCmp (lowerQuery : String) (a b : FileSuggestion) : Ordering :=
  let aExact := lowerStr a.name == lowerQuery
  let bExact := lowerStr b.name == lowerQuery
  if aExact && !bExact then Ordering.lt
  else if !aExact && bExact then Ordering.gt
  else if a.type != b.type then
    (if a.type == FType.folder then Ordering.lt else Ordering.gt)
  else localeCmp a.name b.name

/-- Model of `filterFromCache` (lines 448-555): collect candidates, sort them
with the ranking comparator, and truncate to `MAX_RESULTS` (`slice(0, 50)`). -/
def filterFromCache (root : String) (cache : CachedFileData)
    (query currentPath : String) : List FileSuggestion :=
  (jsSortBy (rankCmp (lowerStr query)) (searchCandidates root cache query currentPath)).take
    MAX_RESULTS

/-- Model of the exclusion test of `getDirectoryContentsFs` (lines 412-417):
each glob pattern is stripped of `*` and `/` characters, and the entry name is
rejected when it contains the stripped pattern. -/
def stripGlobChars (p : String) : String :=
  String.mk (p.data.filter (fun c => c != '*' && c != '/'))

/-- Whether an entry name matches one of the stripped exclusion patterns. -/
def excludeMatches (nm : String) : Bool :=
  EXCLUDE_PATTERNS.any (fun p => strContains nm (stripGlobChars p))

/-- The suggestion object that `getDirectoryContentsFs` builds for one
directory entry (lines 419-428). -/
def fsEntrySuggestion (root currentPath : String) (e : String × FType) : FileSuggestion :=
  let relativePath := if currentPath == "" then e.1 else joinPath currentPath e.1
  { name := e.1
    fullPath := joinPath root relativePath
    relativePath := relativePath
    type := e.2
    icon := if e.2 == FType.folder then folderIcon else getFileIcon (extname e.1) }

/-- Model of `getDirectoryContentsFs` (lines 398-442): the uncached fallback
listing. `fsDir` is the answer of `vscode.workspace.fs.readDirectory` for the
requested directory, with `error` modelling a thrown error (caught, returning
an empty list). -/
def getDirectoryContentsFs (root currentPath : String)
    (fsDir : Except Unit (List (String × FType))) : List FileSuggestion :=
  match fsDir with
  | Except.error _ => []
  | Except.ok entries =>
    let suggestions :=
      entries.foldl
        (fun acc e =>
          if e.1 == ".git" then acc
          else if excludeMatches e.1 then acc
          else acc ++ [fsEntrySuggestion root currentPath e])
        []
    jsSortBy
      (fun a b =>
        if a.type != b.type then
          (if a.type == FType.folder then Ordering.lt else Ordering.gt)
        else localeCmp a.name b.name)
      suggestions

/-- One iteration of the subdirectory scan of `getDirectoryContents`
(lines 323-350): at the root, record the first segment of any nested path;
inside a directory, record `currentPath` joined with the next segment of any
file whose directory lies strictly below `currentPath`. -/
def browseSubdirsStep (currentPath : String) (s : List String)
    (f : FileSuggestion) : List String :=
  let fileDir := dirname f.relativePath
  if currentPath == "" then
    let pathParts := splitPath f.relativePath
    if 1 < pathParts.length then
      let firstDir := pathParts.getD 0 ""
      if firstDir != "" && firstDir != "." then setAdd s firstDir else s
    else s
  else
    if strStarts fileDir (currentPath ++ "/") then
      let relativeToCurrent := String.mk (fileDir.data.drop (currentPath.data.length + 1))
      let firstSubdir := (splitPath relativeToCurrent).getD 0 ""
      if firstSubdir != "" then setAdd s (joinPath currentPath firstSubdir) else s
    else s

/-- The lazy-load trigger of `getDirectoryContents` (line 360): the cache holds
at least ninety percent of `MAX_CACHE_FILES` files. -/
def shouldLazyLoad (cache : CachedFileData) : Bool :=
  MAX_CACHE_FILES * 9 / 10 ≤ cache.files.length

/-- The `filesInDir` set of `getDirectoryContents` (lines 311-318): the
relative paths of the cached files directly inside the browsed directory. -/
def browseFilesInDir (cache : CachedFileData) (currentPath : String) : List String :=
  let dirKey := if currentPath == "" then "." else currentPath
  ((mapGet cache.directoryMap dirKey).getD []).foldl (fun s f => setAdd s f.relativePath) []

/-- The `subdirs` set of `getDirectoryContents` (lines 310-356): immediate
subdirectory paths synthesized by scanning every cached file, minus any path
that is a file of the browsed directory. -/
def browseSubdirs (cache : CachedFileData) (currentPath : String) : List String :=
  (browseFilesInDir cache currentPath).foldl (fun s p => setDelete s p)
    (cache.files.foldl (browseSubdirsStep currentPath) [])

/-- The cache-only part of `getDirectoryContents` (lines 367-391), taken when
no fallback fires: synthesized folder entries (in default sort order of their
paths) followed by the directory files (in `localeCompare` order of their
names). -/
def browseFromCache (root : String) (cache : CachedFileData)
    (currentPath : String) : List FileSuggestion :=
  let sortedSubdirs := jsSortBy strCmp (browseSubdirs cache currentPath)
  let folderResults := sortedSubdirs.map (fun subdir => folderSuggestion root subdir (parseBase subdir))
  let sortedFiles :=
    jsSortBy (fun a b => localeCmp a.name b.name)
      ((browseFilesInDir cache currentPath).filterMap
        (fun relPath => cache.files.find? (fun f => f.relativePath == relPath)))
  folderResults ++ sortedFiles

/-- Whether `getDirectoryContents` takes the filesystem fallback (line 362):
near the cache cap, or the directory has neither a `directoryMap` entry nor
any synthesized subdirectory. -/
def browseFallsBack (cache : CachedFileData) (currentPath : String) : Bool :=
  shouldLazyLoad cache ||
    ((mapGet cache.directoryMap (if currentPath == "" then "." else currentPath)).isNone &&
      (browseSubdirs cache currentPath).length == 0)

/-- Model of `getDirectoryContents` (lines 296-392) when the cache exists:
either the hybrid fallback or the cache-derived listing. -/
def getDirectoryContents (root : String) (cache : CachedFileData)
    (currentPath : String) (fsDir : Except Unit (List (String × FType))) :
    List FileSuggestion :=
  if browseFallsBack cache currentPath then getDirectoryContentsFs root currentPath fsDir
  else browseFromCache root cache currentPath

/-- The mutable state of a `FileSearchManager` instance that the claims
concern: the workspace root and the cached Snapshot. -/
structure EngineState where
  workspaceRoot : String
  cachedData : Option CachedFileData
deriving DecidableEq, Repr

/-- Model of `invalidateCacheQuietly` (lines 104-106), the action of every
filesystem watcher notification (create, change, delete): drop the Snapshot. -/
def invalidateCacheQuietly (st : EngineState) : EngineState :=
  { st with cachedData := none }

/-- Model of `isCacheValid` (lines 249-255). -/
def isCacheValid (st : EngineState) (now : Nat) : Bool :=
  match st.cachedData with
  | none => false
  | some c => now - c.timestamp < CACHE_TTL

/-- Model of one `buildCache` run (lines 119-209): `enum` is the outcome of
`workspace.findFiles` (workspace-relative paths, or a rejected promise). On
failure the partial result is discarded and the Snapshot left absent. -/
def runBuildCache (st : EngineState) (enum : Except Unit (List String))
    (now : Nat) : EngineState :=
  if st.workspaceRoot == "" then st
  else
    match enum with
    | Except.ok uris => { st with cachedData := some (buildCache st.workspaceRoot uris now) }
    | Except.error _ => { st with cachedData := none }

/-- Model of `ensureCache` (lines 260-264). -/
def ensureCache (st : EngineState) (enum : Except Unit (List String))
    (now : Nat) : EngineState :=
  if isCacheValid st now then st else runBuildCache st enum now

/-- Model of the public `search` (lines 272-290). Returns the engine state
after the call together with the result list. `enum` and `fsDir` are the
filesystem collaborators a build or fallback would consult during this call. -/
def search (st : EngineState) (query currentPath : String)
    (enum : Except Unit (List String))
    (fsDir : Except Unit (List (String × FType))) (now : Nat) :
    EngineState × List FileSuggestion :=
  if st.workspaceRoot == "" then (st, [])
  else
    let st1 := ensureCache st enum now
    match st1.cachedData with
    | none => (st1, [])
    | some cache =>
      if query == "" then (st1, getDirectoryContents st1.workspaceRoot cache currentPath fsDir)
      else (st1, filterFromCache st1.workspaceRoot cache query currentPath)

/-- Model of `isFolderNavigation` (lines 595-597). -/
def isFolderNavigation (query : String) : Bool := strEnds query "/"

/-- Model of `extractFolderPath` (lines 602-609): strip one leading `@`
(the regex replace) and one trailing separator. -/
def extractFolderPath (query : String) : String :=
  let folderPath := if strStarts query "@" then String.mk (query.data.drop 1) else query
  if strEnds folderPath "/" then String.mk folderPath.data.dropLast else folderPath

/-- Model of `getParentPath` (lines 584-590). -/
def getParentPath (currentPath : String) : String :=
  if currentPath == "" || currentPath == "/" then ""
  else
    let parent := dirname currentPath
    if parent == "." then "" else parent

/-- Model of `formatForInsertion` (lines 616-621). -/
def formatForInsertion (s : FileSuggestion) (addTrailingSlash : Bool) : String :=
  if s.type == FType.folder && addTrailingSlash then "@" ++ s.relativePath ++ "/"
  else "@" ++ s.relativePath

/-! Concrete workspaces used by counterexamples and witnesses. -/

/-- A workspace of 51 root files whose names all contain the letter `z`:
fifty two-letter names `zA` to `zr`, then the one-letter name `z` (an exact
match for the query `"z"`) last in enumeration order. -/
def manyMatchUris : List String :=
  (List.range 50).map (fun i => String.mk ['z', Char.ofNat (65 + i)]) ++ ["z"]

/-! Supporting lemmas about the string model. -/

theorem append_data (a b : String) : (a ++ b).data = a.data ++ b.data := rfl

theorem mk_data (s : String) : String.mk s.data = s := rfl

theorem strStarts_at (c : Char) (l : List Char) :
    strStarts (String.mk (c :: l)) (String.mk [c]) = true := by
  simp [strStarts, List.isPrefixOf]

theorem strEnds_mk_append (l : List Char) (c : Char) :
    strEnds (String.mk (l ++ [c])) (String.mk [c]) = true := by
  simp [strEnds, List.isSuffixOf, List.isPrefixOf]

/-! Claim C10. -/

/-- Claim C10: for every `FileSuggestion` whose `relativePath` does not end
with the separator, and every flag, `extractFolderPath` inverts
`formatForInsertion`: the `@`-prefixed insertion format (with optional
trailing slash for folders) round-trips back to the original relative path. -/
theorem extract_format_roundtrip (s : FileSuggestion) (b : Bool)
    (h : strEnds s.relativePath "/" = false) :
    extractFolderPath (formatForInsertion s b) = s.relativePath := by
  unfold formatForInsertion extractFolderPath
  by_cases hb : (s.type == FType.folder && b) = true
  · simp only [hb, if_pos]
    have hdata : ("@" ++ s.relativePath ++ "/").data = '@' :: (s.relativePath.data ++ ['/']) := rfl
    have hstart : strStarts ("@" ++ s.relativePath ++ "/") "@" = true := by
      simp [strStarts, hdata, List.isPrefixOf]
    simp only [hstart, if_pos, hdata, List.drop_succ_cons, List.drop_zero]
    have hends : strEnds (String.mk (s.relativePath.data ++ ['/'])) "/" = true :=
      strEnds_mk_append _ _
    simp only [hends, if_pos, List.dropLast_concat, mk_data]
  · simp only [hb, if_neg, Bool.false_eq_true, not_false_iff]
    have hdata : ("@" ++ s.relativePath).data = '@' :: s.relativePath.data := rfl
    have hstart : strStarts ("@" ++ s.relativePath) "@" = true := by
      simp [strStarts, hdata, List.isPrefixOf]
    simp only [hstart, if_pos, hdata, List.drop_succ_cons, List.drop_zero, mk_data]
    simp [h]

/-- Witness for claim C10 at a concrete folder suggestion. -/
theorem extract_format_roundtrip_witness :
    strEnds "a/b" "/" = false ∧
      extractFolderPath (formatForInsertion (folderSuggestion "/w" "a/b" "b") true) = "a/b" :=
  ⟨by decide, extract_format_roundtrip (folderSuggestion "/w" "a/b" "b") true (by decide)⟩

/-! Claim C1. -/

/-- Counterexample to claim C1: in the 51-file workspace `manyMatchUris`, 51
candidates match the query `"z"`, and the file named `z` — an exact name match
that the section 4.4 ranking places strictly before every returned element —
is absent from the 50 returned results, because the scan of the cached files
stops after the first 50 matches in cache order. The returned list is
therefore not the top-50 under the ranking. -/
theorem truncation_before_ranking_cex :
    ((buildCache "/w" manyMatchUris 0).files.filter
        (fun f => strContains (lowerStr f.name) "z")).length = 51 ∧
    (buildCache "/w" manyMatchUris 0).files.any (fun f => f.name == "z") = true ∧
    (filterFromCache "/w" (buildCache "/w" manyMatchUris 0) "z" "").length = 50 ∧
    (filterFromCache "/w" (buildCache "/w" manyMatchUris 0) "z" "").all
      (fun e => e.name != "z") = true ∧
    (filterFromCache "/w" (buildCache "/w" manyMatchUris 0) "z" "").all
      (fun e => rankCmp "z" (buildEntry "/w" "z") e == Ordering.lt) = true := by
  decide

/-! Claim C2. -/

/-- Counterexample to claim C2: browsing (the empty query) is not truncated to
`MAX_RESULTS`; with 51 files in the workspace root, `search` returns 51
entries. -/
theorem browse_over_max_cex :
    MAX_RESULTS <
      ((search ⟨"/w", some (buildCache "/w" manyMatchUris 0)⟩ "" ""
          (Except.ok []) (Except.error ()) 0).2).length := by
  decide

/-- Claim C2 as amended: for every non-empty query (the substring-search mode)
the list returned by `search` contains at most `MAX_RESULTS` (50) entries; the
empty-query browse mode has no such bound. -/
theorem search_query_le_max (st : EngineState) (query currentPath : String)
    (enum : Except Unit (List String))
    (fsDir : Except Unit (List (String × FType))) (now : Nat)
    (hq : query ≠ "") :
    ((search st query currentPath enum fsDir now).2).length ≤ MAX_RESULTS := by
  have hq2 : (query == "") = false := by simpa using hq
  unfold search
  split
  · simp
  · rcases hcd : (ensureCache st enum now).cachedData with _ | cache
    · simp [hcd]
    · simp only [hcd, hq2, Bool.false_eq_true, if_false, filterFromCache]
      exact List.length_take_le _ _

/-- Witness for the amended claim C2 at a concrete search. -/
theorem search_query_le_max_witness :
    (("z" : String) ≠ "") ∧
      ((search ⟨"/w", some (buildCache "/w" ["a.ts"] 0)⟩ "z" ""
          (Except.ok []) (Except.error ()) 0).2).length ≤ MAX_RESULTS :=
  ⟨by decide,
    search_query_le_max ⟨"/w", some (buildCache "/w" ["a.ts"] 0)⟩ "z" ""
      (Except.ok []) (Except.error ()) 0 (by decide)⟩

/-! Claim C8. -/

/-- Claim C8: after an eager invalidation signal (`invalidateCacheQuietly`
leaves `cachedData = none`) or once the 30-second TTL since the snapshot
timestamp has elapsed, the next `search` call rebuilds the snapshot before
returning: the post-call state is exactly the rebuilt one, any snapshot it
holds is fresh (built now, within TTL), and the returned results are computed
from the freshly built snapshot, never from the invalidated or expired one. -/
theorem search_rebuilds_when_stale (st : EngineState) (query currentPath : String)
    (enum : Except Unit (List String))
    (fsDir : Except Unit (List (String × FType))) (now : Nat)
    (hroot : st.workspaceRoot ≠ "")
    (hstale : st.cachedData = none ∨
      ∃ c, st.cachedData = some c ∧ c.timestamp + CACHE_TTL ≤ now) :
    (search st query currentPath enum fsDir now).1 = runBuildCache st enum now ∧
    (∀ c, (search st query currentPath enum fsDir now).1.cachedData = some c →
      c.timestamp = now ∧ now - c.timestamp < CACHE_TTL) ∧
    (search st query currentPath enum fsDir now).2 =
      (match enum with
       | Except.error _ => []
       | Except.ok uris =>
         if query = "" then
           getDirectoryContents st.workspaceRoot (buildCache st.workspaceRoot uris now)
             currentPath fsDir
         else
           filterFromCache st.workspaceRoot (buildCache st.workspaceRoot uris now)
             query currentPath) := by
  have hr : (st.workspaceRoot == "") = false := by simpa using hroot
  have hvalid : isCacheValid st now = false := by
    rcases hstale with h | ⟨c, hc, hts⟩
    · simp [isCacheValid, h]
    · have hn : ¬ (now - c.timestamp < CACHE_TTL) := by omega
      simp [isCacheValid, hc, hn]
  rcases enum with e | uris
  · have hens : ensureCache st (Except.error e) now = { st with cachedData := none } := by
      simp [ensureCache, hvalid, runBuildCache, hr]
    refine ⟨?_, ?_, ?_⟩
    · simp [search, hr, hens, runBuildCache]
    · intro c hc
      simp [search, hr, hens] at hc
    · simp [search, hr, hens]
  · have hens : ensureCache st (Except.ok uris) now =
        { st with cachedData := some (buildCache st.workspaceRoot uris now) } := by
      simp [ensureCache, hvalid, runBuildCache, hr]
    refine ⟨?_, ?_, ?_⟩
    · by_cases hq : (query == "") = true <;>
        simp [search, hr, hens, hq, runBuildCache]
    · intro c hc
      have hts : c = buildCache st.workspaceRoot uris now := by
        by_cases hq : (query == "") = true <;> simp [search, hr, hens, hq] at hc <;>
          exact hc.symm
      rw [hts]
      constructor
      · simp [buildCache]
      · simp [buildCache, CACHE_TTL]
    · by_cases hq : query = ""
      · have hq2 : (query == "") = true := by simpa using hq
        simp [search, hr, hens, hq, hq2]
      · have hq2 : (query == "") = false := by simpa using hq
        simp [search, hr, hens, hq, hq2]

/-- Witness for claim C8: a post-invalidation state really is rebuilt by the
next search. -/
theorem search_rebuilds_when_stale_witness :
    (search ⟨"/w", none⟩ "x" "" (Except.ok ["a.ts"]) (Except.error ()) 5).1 =
      runBuildCache ⟨"/w", none⟩ (Except.ok ["a.ts"]) 5 :=
  (search_rebuilds_when_stale ⟨"/w", none⟩ "x" "" (Except.ok ["a.ts"]) (Except.error ()) 5
    (by decide) (Or.inl rfl)).1

/-! Claim C9. -/

/-- Claim C9: `search` always completes with a (possibly empty) list — the
model is a total function — and degrades failures to empty results: with an
empty workspace root it returns `[]` unchanged (not an error), and when the
enumeration collaborator fails during a (re)build, the partial snapshot is
discarded (`cachedData = none`) and `search` returns `[]` instead of
propagating the failure. -/
theorem search_error_handling (st : EngineState) (query currentPath : String)
    (enum : Except Unit (List String))
    (fsDir : Except Unit (List (String × FType))) (now : Nat) :
    (st.workspaceRoot = "" → search st query currentPath enum fsDir now = (st, [])) ∧
    (st.workspaceRoot ≠ "" → isCacheValid st now = false →
      ∀ e : Unit, enum = Except.error e →
        (search st query currentPath enum fsDir now).1.cachedData = none ∧
        (search st query currentPath enum fsDir now).2 = []) := by
  constructor
  · intro h
    have hr : (st.workspaceRoot == "") = true := by simpa using h
    simp [search, hr]
  · intro hroot hvalid e henum
    have hr : (st.workspaceRoot == "") = false := by simpa using hroot
    subst henum
    simp [search, hr, ensureCache, hvalid, runBuildCache]

/-- Witness for claim C9: an empty workspace and a failing enumeration both
produce empty results. -/
theorem search_error_handling_witness :
    (search ⟨"", none⟩ "q" "" (Except.ok []) (Except.error ()) 5 = (⟨"", none⟩, [])) ∧
      (search ⟨"/w", none⟩ "q" "" (Except.error ()) (Except.error ()) 5).2 = [] :=
  ⟨(search_error_handling ⟨"", none⟩ "q" "" (Except.ok []) (Except.error ()) 5).1 rfl,
    ((search_error_handling ⟨"/w", none⟩ "q" "" (Except.error ()) (Except.error ()) 5).2
      (by decide) (by decide) () rfl).2⟩

/-! Order-theoretic facts about the comparators. -/

theorem cmpChars_self : ∀ l : List Char, cmpChars l l = Ordering.eq
  | [] => rfl
  | a :: l => by simp [cmpChars, cmpChars_self l]

theorem cmpChars_eq_iff : ∀ a b : List Char, cmpChars a b = Ordering.eq ↔ a = b
  | [], [] => by simp [cmpChars]
  | [], _ :: _ => by simp [cmpChars]
  | _ :: _, [] => by simp [cmpChars]
  | x :: xs, y :: ys => by
    rcases lt_trichotomy x y with h | h | h
    · simp [cmpChars, h, h.ne]
    · subst h
      simp [cmpChars, lt_irrefl, cmpChars_eq_iff xs ys]
    · simp [cmpChars, lt_asymm h, h, h.ne.symm]

theorem cmpChars_swap : ∀ a b : List Char, cmpChars b a = (cmpChars a b).swap
  | [], [] => rfl
  | [], _ :: _ => rfl
  | _ :: _, [] => rfl
  | x :: xs, y :: ys => by
    rcases lt_trichotomy x y with h | h | h
    · simp [cmpChars, h, lt_asymm h, Ordering.swap]
    · subst h
      simp [cmpChars, lt_irrefl, cmpChars_swap xs ys]
    · simp [cmpChars, h, lt_asymm h, Ordering.swap]

theorem cmpChars_lt_trans : ∀ a b c : List Char,
    cmpChars a b = Ordering.lt → cmpChars b c = Ordering.lt → cmpChars a c = Ordering.lt
  | [], [], _ => by intro h1; simp [cmpChars] at h1
  | _ :: _, [], _ => by intro h1; simp [cmpChars] at h1
  | [], _ :: _, [] => by intro _ h2; simp [cmpChars] at h2
  | _ :: _, _ :: _, [] => by intro _ h2; simp [cmpChars] at h2
  | [], _ :: _, _ :: _ => by simp [cmpChars]
  | x :: xs, y :: ys, z :: zs => by
    intro h1 h2
    have hxy : x < y ∨ (x = y ∧ cmpChars xs ys = Ordering.lt) := by
      rcases lt_trichotomy x y with h | h | h
      · exact Or.inl h
      · subst h
        simp [cmpChars, lt_irrefl] at h1
        exact Or.inr ⟨rfl, h1⟩
      · simp [cmpChars, lt_asymm h, h] at h1
    have hyz : y < z ∨ (y = z ∧ cmpChars ys zs = Ordering.lt) := by
      rcases lt_trichotomy y z with h | h | h
      · exact Or.inl h
      · subst h
        simp [cmpChars, lt_irrefl] at h2
        exact Or.inr ⟨rfl, h2⟩
      · simp [cmpChars, lt_asymm h, h] at h2
    rcases hxy with h | ⟨he, hr⟩
    · rcases hyz with h2a | ⟨he2, _⟩
      · have : x < z := lt_trans h h2a
        simp [cmpChars, this]
      · subst he2
        simp [cmpChars, h]
    · subst he
      rcases hyz with h2a | ⟨he2, hr2⟩
      · simp [cmpChars, h2a]
      · subst he2
        simp [cmpChars, lt_irrefl, cmpChars_lt_trans xs ys zs hr hr2]

theorem cmpChars_le_trans {a b c : List Char}
    (h1 : cmpChars a b ≠ Ordering.gt) (h2 : cmpChars b c ≠ Ordering.gt) :
    cmpChars a c ≠ Ordering.gt := by
  have hab : cmpChars a b = Ordering.lt ∨ a = b := by
    rcases hv : cmpChars a b with _ | _ | _
    · exact Or.inl rfl
    · exact Or.inr ((cmpChars_eq_iff a b).mp hv)
    · exact absurd hv h1
  have hbc : cmpChars b c = Ordering.lt ∨ b = c := by
    rcases hv : cmpChars b c with _ | _ | _
    · exact Or.inl rfl
    · exact Or.inr ((cmpChars_eq_iff b c).mp hv)
    · exact absurd hv h2
  rcases hab with h | h
  · rcases hbc with h2a | h2a
    · simp [cmpChars_lt_trans a b c h h2a]
    · subst h2a
      simp [h]
  · subst h
    rcases hbc with h2a | h2a
    · simp [h2a]
    · subst h2a
      simp [cmpChars_self]

theorem cmpChars_le_total (a b : List Char) :
    cmpChars a b ≠ Ordering.gt ∨ cmpChars b a ≠ Ordering.gt := by
  rcases hv : cmpChars a b with _ | _ | _
  · simp
  · simp
  · right
    rw [cmpChars_swap a b, hv]
    simp [Ordering.swap]

theorem strData_inj {a b : String} (h : a.data = b.data) : a = b := by
  cases a
  cases b
  exact congrArg String.mk h

theorem localeCmp_le_trans {a b c : String}
    (h1 : localeCmp a b ≠ Ordering.gt) (h2 : localeCmp b c ≠ Ordering.gt) :
    localeCmp a c ≠ Ordering.gt := by
  unfold localeCmp at *
  rcases hp1 : cmpChars (lowerStr a).data (lowerStr b).data with _ | _ | _ <;>
    rcases hp2 : cmpChars (lowerStr b).data (lowerStr c).data with _ | _ | _ <;>
    simp [hp1, hp2] at h1 h2 ⊢
  · have := cmpChars_lt_trans _ _ _ hp1 hp2
    simp [this]
  · have he : (lowerStr b).data = (lowerStr c).data := (cmpChars_eq_iff _ _).mp hp2
    rw [← he, hp1]
    simp
  · have he : (lowerStr a).data = (lowerStr b).data := (cmpChars_eq_iff _ _).mp hp1
    rw [he, hp2]
    simp
  · have he1 : (lowerStr a).data = (lowerStr b).data := (cmpChars_eq_iff _ _).mp hp1
    have he2 : (lowerStr b).data = (lowerStr c).data := (cmpChars_eq_iff _ _).mp hp2
    rw [he1, he2, cmpChars_self]
    simp
    exact cmpChars_le_trans h2 h1

theorem localeCmp_le_total (a b : String) :
    localeCmp a b ≠ Ordering.gt ∨ localeCmp b a ≠ Ordering.gt := by
  unfold localeCmp
  rcases hp : cmpChars (lowerStr a).data (lowerStr b).data with _ | _ | _
  · simp [hp]
  · have he : (lowerStr a).data = (lowerStr b).data := (cmpChars_eq_iff _ _).mp hp
    have hp2 : cmpChars (lowerStr b).data (lowerStr a).data = Ordering.eq := by
      rw [← he, cmpChars_self]
    rw [hp2]
    exact (cmpChars_le_total b.data a.data).elim Or.inl Or.inr
  · have hp2 : cmpChars (lowerStr b).data (lowerStr a).data = Ordering.lt := by
      rw [cmpChars_swap (lowerStr a).data (lowerStr b).data, hp]
      rfl
    rw [hp2]
    simp

theorem rankCmp_le_trans (q : String) (a b c : FileSuggestion)
    (h1 : rankCmp q a b ≠ Ordering.gt) (h2 : rankCmp q b c ≠ Ordering.gt) :
    rankCmp q a c ≠ Ordering.gt := by
  unfold rankCmp at h1 h2 ⊢
  by_cases haE : lowerStr a.name = q <;> by_cases hbE : lowerStr b.name = q <;>
    by_cases hcE : lowerStr c.name = q <;>
    cases hat : a.type <;> cases hbt : b.type <;> cases hct : c.type <;>
    simp [haE, hbE, hcE, hat, hbt, hct] at h1 h2 ⊢ <;>
    exact localeCmp_le_trans h1 h2

theorem rankCmp_le_total (q : String) (a b : FileSuggestion) :
    rankCmp q a b ≠ Ordering.gt ∨ rankCmp q b a ≠ Ordering.gt := by
  unfold rankCmp
  by_cases haE : lowerStr a.name = q <;> by_cases hbE : lowerStr b.name = q <;>
    cases hat : a.type <;> cases hbt : b.type <;>
    simp [haE, hbE, hat, hbt] <;>
    exact localeCmp_le_total a.name b.name

/-- The ordering property stated by the claimed ranking contract, for a pair
with the earlier element on the left: an exact case-insensitive match never
follows a non-exact one; among non-exact results a file never precedes a
folder, and results of equal kind are in ascending `localeCompare` name
order. -/
def claimedRankLe (lq : String) (a b : FileSuggestion) : Prop :=
  (lowerStr b.name = lq → lowerStr a.name = lq) ∧
  (lowerStr a.name ≠ lq → lowerStr b.name ≠ lq →
    (¬ (a.type = FType.file ∧ b.type = FType.folder)) ∧
    (a.type = b.type → localeCmp a.name b.name ≠ Ordering.gt))

theorem rankCmp_le_implies_claimed {lq : String} {a b : FileSuggestion}
    (h : rankCmp lq a b ≠ Ordering.gt) : claimedRankLe lq a b := by
  unfold rankCmp at h
  unfold claimedRankLe
  by_cases haE : lowerStr a.name = lq <;> by_cases hbE : lowerStr b.name = lq
  · exact ⟨fun _ => haE, fun hna _ => absurd haE hna⟩
  · exact ⟨fun hb => absurd hb hbE, fun hna _ => absurd haE hna⟩
  · exfalso
    apply h
    simp [haE, hbE]
  · refine ⟨fun hb => absurd hb hbE, fun _ _ => ?_⟩
    simp only [haE, hbE] at h
    constructor
    · rintro ⟨haf, hbf⟩
      simp [haE, hbE, haf, hbf] at h
    · intro het
      have hbne : (a.type != b.type) = false := by simp [het]
      simp [haE, hbE, hbne] at h
      exact h

/-! Claim C5. -/

/-- Claim C5: for every non-empty query, in the returned list any result whose
name equals the query case-insensitively is ordered before any result that
only contains it (no exact match ever follows a non-exact one); among
non-exact results folders come before files, and within each kind results are
in ascending `localeCompare` name order; and the sort is stable (a pair of
candidates already in comparator order keeps its relative order in the sorted
list). -/
theorem search_ranking (root : String) (cache : CachedFileData)
    (query currentPath : String) (hq : query ≠ "") :
    List.Pairwise (claimedRankLe (lowerStr query))
      (filterFromCache root cache query currentPath) ∧
    (∀ a b, List.Sublist [a, b] (searchCandidates root cache query currentPath) →
      rankCmp (lowerStr query) a b ≠ Ordering.gt →
      List.Sublist [a, b] (jsSortBy (rankCmp (lowerStr query))
        (searchCandidates root cache query currentPath))) := by
  constructor
  · have hsorted :
        List.Pairwise (fun a b => rankCmp (lowerStr query) a b ≠ Ordering.gt)
          (jsSortBy (rankCmp (lowerStr query))
            (searchCandidates root cache query currentPath)) := by
      haveI : IsTrans FileSuggestion
          (fun a b => rankCmp (lowerStr query) a b ≠ Ordering.gt) :=
        ⟨rankCmp_le_trans (lowerStr query)⟩
      haveI : IsTotal FileSuggestion
          (fun a b => rankCmp (lowerStr query) a b ≠ Ordering.gt) :=
        ⟨rankCmp_le_total (lowerStr query)⟩
      exact List.sorted_insertionSort _ _
    have htake := hsorted.sublist
      (List.take_sublist MAX_RESULTS
        (jsSortBy (rankCmp (lowerStr query)) (searchCandidates root cache query currentPath)))
    exact htake.imp (fun h => rankCmp_le_implies_claimed h)
  · intro a b hsub hle
    exact List.pair_sublist_insertionSort hle hsub

/-- Witness for claim C5 at a concrete search. -/
theorem search_ranking_witness :
    (("b" : String) ≠ "") ∧
      List.Pairwise (claimedRankLe (lowerStr "b"))
        (filterFromCache "/w" (buildCache "/w" ["src/a.ts", "src/sub/b.ts", "readme.md"] 0)
          "b" "") :=
  ⟨by decide,
    (search_ranking "/w" (buildCache "/w" ["src/a.ts", "src/sub/b.ts", "readme.md"] 0)
      "b" "" (by decide)).1⟩

/-! Structural facts about the two candidate-collection loops and the cache
builder, used by several claims below. -/

theorem band_left {a b : Bool} (h : (a && b) = true) : a = true := by
  rcases a
  · simp at h
  · rfl

theorem collectFileMatches_skip {lq cp : String} {f : FileSuggestion}
    {rest : List FileSuggestion} {results : List FileSuggestion} {seen : List String}
    (h : scopePasses cp f.relativePath = false) :
    collectFileMatches lq cp (f :: rest) results seen =
      collectFileMatches lq cp rest results seen := by
  rw [collectFileMatches, if_pos (by simp [h])]

theorem collectFileMatches_go {lq cp : String} {f : FileSuggestion}
    {rest : List FileSuggestion} {results : List FileSuggestion} {seen : List String}
    (h : scopePasses cp f.relativePath = true) :
    collectFileMatches lq cp (f :: rest) results seen =
      (let step :=
        if fileHit lq f && !(seen.contains f.relativePath) then
          (results ++ [f], seen ++ [f.relativePath])
        else (results, seen)
       if MAX_RESULTS ≤ step.1.length then step
       else collectFileMatches lq cp rest step.1 step.2) := by
  rw [collectFileMatches, if_neg (by simp [h])]

theorem collectFileMatches_mem (lq cp : String) (files : List FileSuggestion) :
    ∀ (results : List FileSuggestion) (seen : List String) (x : FileSuggestion),
      x ∈ (collectFileMatches lq cp files results seen).1 →
      x ∈ results ∨
        (x ∈ files ∧ scopePasses cp x.relativePath = true ∧ fileHit lq x = true) := by
  induction files with
  | nil =>
    intro results seen x hx
    exact Or.inl hx
  | cons f rest ih =>
    intro results seen x hx
    by_cases hs : scopePasses cp f.relativePath = true
    · rw [collectFileMatches_go hs] at hx
      by_cases hc : (fileHit lq f && !(seen.contains f.relativePath)) = true
      · simp only [hc, if_true] at hx
        by_cases hm : MAX_RESULTS ≤ (results ++ [f]).length
        · simp only [if_pos hm] at hx
          rcases List.mem_append.mp hx with h | h
          · exact Or.inl h
          · have hxf : x = f := by simpa using h
            subst hxf
            exact Or.inr ⟨List.mem_cons_self x rest, hs, band_left hc⟩
        · simp only [if_neg hm] at hx
          rcases ih (results ++ [f]) (seen ++ [f.relativePath]) x hx with h | ⟨hm2, hrest⟩
          · rcases List.mem_append.mp h with h2 | h2
            · exact Or.inl h2
            · have hxf : x = f := by simpa using h2
              subst hxf
              exact Or.inr ⟨List.mem_cons_self x rest, hs, band_left hc⟩
          · exact Or.inr ⟨List.mem_cons_of_mem f hm2, hrest⟩
      · simp only [hc, Bool.false_eq_true, if_false] at hx
        by_cases hm : MAX_RESULTS ≤ results.length
        · simp only [if_pos hm] at hx
          exact Or.inl hx
        · simp only [if_neg hm] at hx
          rcases ih results seen x hx with h | ⟨hm2, hrest⟩
          · exact Or.inl h
          · exact Or.inr ⟨List.mem_cons_of_mem f hm2, hrest⟩
    · have hs2 : scopePasses cp f.relativePath = false := by
        rcases hb : scopePasses cp f.relativePath
        · rfl
        · exact absurd hb hs
      rw [collectFileMatches_skip hs2] at hx
      rcases ih results seen x hx with h | ⟨hm2, hrest⟩
      · exact Or.inl h
      · exact Or.inr ⟨List.mem_cons_of_mem f hm2, hrest⟩

/-- What a single folder hit looks like: position `i` of the segment list of
one scanned file path produced the suggestion `x`. -/
def folderHitAt (root lq : String) (dmap : List (String × List FileSuggestion))
    (parts : List String) (i : Nat) (x : FileSuggestion) : Prop :=
  i + 1 < parts.length ∧
  x = folderSuggestion root (joinSegs (parts.take (i + 1))) (parts.getD i "") ∧
  mapHas dmap (joinSegs (parts.take (i + 1))) = true ∧
  strContains (lowerStr (parts.getD i "")) lq = true

theorem pairFoldl_mem {β : Type} (g : List FileSuggestion × List String → β →
      List FileSuggestion × List String)
    (P : β → FileSuggestion → Prop)
    (hg : ∀ acc b x, x ∈ (g acc b).1 → x ∈ acc.1 ∨ P b x) :
    ∀ (bs : List β) (acc : List FileSuggestion × List String) (x : FileSuggestion),
      x ∈ (bs.foldl g acc).1 → x ∈ acc.1 ∨ ∃ b ∈ bs, P b x := by
  intro bs
  induction bs with
  | nil => intro acc x hx; exact Or.inl hx
  | cons b rest ih =>
    intro acc x hx
    rcases ih (g acc b) x hx with h | ⟨b2, hb2, hp⟩
    · rcases hg acc b x h with h2 | h2
      · exact Or.inl h2
      · exact Or.inr ⟨b, List.mem_cons_self b rest, h2⟩
    · exact Or.inr ⟨b2, List.mem_cons_of_mem b hb2, hp⟩

theorem folderScanFile_mem (root lq : String)
    (dmap : List (String × List FileSuggestion)) (parts : List String)
    (acc : List FileSuggestion × List String) (x : FileSuggestion)
    (hx : x ∈ (folderScanFile root lq dmap parts acc).1) :
    x ∈ acc.1 ∨ ∃ i, folderHitAt root lq dmap parts i x := by
  have hg : ∀ (a : List FileSuggestion × List String) (i : Nat) (y : FileSuggestion),
      y ∈ ((fun acc2 i =>
        let dirPart := parts.getD i ""
        let dirPathSoFar := joinSegs (parts.take (i + 1))
        if mapHas dmap dirPathSoFar then
          if strContains (lowerStr dirPart) lq && !(acc2.2.contains dirPathSoFar) then
            (acc2.1 ++ [folderSuggestion root dirPathSoFar dirPart], acc2.2 ++ [dirPathSoFar])
          else acc2
        else acc2) a i).1 →
      y ∈ a.1 ∨ (i + 1 ≤ parts.length - 1 →
        y = folderSuggestion root (joinSegs (parts.take (i + 1))) (parts.getD i "") ∧
        mapHas dmap (joinSegs (parts.take (i + 1))) = true ∧
        strContains (lowerStr (parts.getD i "")) lq = true) := by
    intro a i y hy
    by_cases h1 : mapHas dmap (joinSegs (parts.take (i + 1))) = true
    · simp only [h1, if_true] at hy
      by_cases h2 : (strContains (lowerStr (parts.getD i "")) lq &&
          !(a.2.contains (joinSegs (parts.take (i + 1))))) = true
      · simp only [h2, if_true] at hy
        rcases List.mem_append.mp hy with h3 | h3
        · exact Or.inl h3
        · have hxe : y = folderSuggestion root (joinSegs (parts.take (i + 1)))
              (parts.getD i "") := by simpa using h3
          exact Or.inr (fun _ => ⟨hxe, h1, band_left h2⟩)
      · simp only [h2, Bool.false_eq_true, if_false] at hy
        exact Or.inl hy
    · simp only [h1, Bool.false_eq_true, if_false] at hy
      exact Or.inl hy
  rcases pairFoldl_mem _ _ hg (List.range (parts.length - 1)) acc x hx with h | ⟨i, hi, hp⟩
  · exact Or.inl h
  · have hlt : i < parts.length - 1 := List.mem_range.mp hi
    refine Or.inr ⟨i, ?_, ?_⟩
    · omega
    · exact hp (by omega)

theorem collectFolderMatches_stop {root lq cp : String}
    {dmap : List (String × List FileSuggestion)} {f : FileSuggestion}
    {rest : List FileSuggestion} {acc : List FileSuggestion × List String}
    (h : MAX_RESULTS ≤ acc.1.length) :
    collectFolderMatches root lq cp dmap (f :: rest) acc = acc := by
  rw [collectFolderMatches, if_pos h]

theorem collectFolderMatches_skip {root lq cp : String}
    {dmap : List (String × List FileSuggestion)} {f : FileSuggestion}
    {rest : List FileSuggestion} {acc : List FileSuggestion × List String}
    (h1 : ¬ MAX_RESULTS ≤ acc.1.length) (h2 : scopePasses cp f.relativePath = false) :
    collectFolderMatches root lq cp dmap (f :: rest) acc =
      collectFolderMatches root lq cp dmap rest acc := by
  rw [collectFolderMatches, if_neg h1, if_pos (by simp [h2])]

theorem collectFolderMatches_go {root lq cp : String}
    {dmap : List (String × List FileSuggestion)} {f : FileSuggestion}
    {rest : List FileSuggestion} {acc : List FileSuggestion × List String}
    (h1 : ¬ MAX_RESULTS ≤ acc.1.length) (h2 : scopePasses cp f.relativePath = true) :
    collectFolderMatches root lq cp dmap (f :: rest) acc =
      collectFolderMatches root lq cp dmap rest
        (folderScanFile root lq dmap (splitPath f.relativePath) acc) := by
  rw [collectFolderMatches, if_neg h1, if_neg (by simp [h2])]

theorem collectFolderMatches_mem (root lq cp : String)
    (dmap : List (String × List FileSuggestion)) (files : List FileSuggestion) :
    ∀ (acc : List FileSuggestion × List String) (x : FileSuggestion),
      x ∈ (collectFolderMatches root lq cp dmap files acc).1 →
      x ∈ acc.1 ∨ ∃ f ∈ files, scopePasses cp f.relativePath = true ∧
        ∃ i, folderHitAt root lq dmap (splitPath f.relativePath) i x := by
  induction files with
  | nil => intro acc x hx; exact Or.inl hx
  | cons f rest ih =>
    intro acc x hx
    by_cases h1 : MAX_RESULTS ≤ acc.1.length
    · rw [collectFolderMatches_stop h1] at hx
      exact Or.inl hx
    · by_cases h2 : scopePasses cp f.relativePath = true
      · rw [collectFolderMatches_go h1 h2] at hx
        rcases ih (folderScanFile root lq dmap (splitPath f.relativePath) acc) x hx with
          h | ⟨f2, hf2, hsc, hhit⟩
        · rcases folderScanFile_mem root lq dmap (splitPath f.relativePath) acc x h with
            h3 | ⟨i, hp⟩
          · exact Or.inl h3
          · exact Or.inr ⟨f, List.mem_cons_self f rest, h2, i, hp⟩
        · exact Or.inr ⟨f2, List.mem_cons_of_mem f hf2, hsc, hhit⟩
      · have h2f : scopePasses cp f.relativePath = false := by
          rcases hb : scopePasses cp f.relativePath
          · rfl
          · exact absurd hb h2
        rw [collectFolderMatches_skip h1 h2f] at hx
        rcases ih acc x hx with h | ⟨f2, hf2, hsc, hhit⟩
        · exact Or.inl h
        · exact Or.inr ⟨f2, List.mem_cons_of_mem f hf2, hsc, hhit⟩

/-- Origin of every element of the unsorted candidate list: an in-scope
matching cached file, or a folder suggestion synthesized from a directory
prefix of an in-scope cached file path. -/
theorem searchCandidates_mem (root : String) (cache : CachedFileData)
    (query currentPath : String) (x : FileSuggestion)
    (hx : x ∈ searchCandidates root cache query currentPath) :
    (x ∈ cache.files ∧ scopePasses currentPath x.relativePath = true ∧
      fileHit (lowerStr query) x = true) ∨
    (∃ f ∈ cache.files, scopePasses currentPath f.relativePath = true ∧
      ∃ i, folderHitAt root (lowerStr query) cache.directoryMap
        (splitPath f.relativePath) i x) := by
  unfold searchCandidates at hx
  rcases collectFolderMatches_mem root (lowerStr query) currentPath cache.directoryMap
      cache.files _ x hx with h | h
  · rcases collectFileMatches_mem (lowerStr query) currentPath cache.files [] [] x h with
      h2 | h2
    · simp at h2
    · exact Or.inl h2
  · exact Or.inr h

/-- Every element of `filterFromCache` is a candidate. -/
theorem filterFromCache_mem (root : String) (cache : CachedFileData)
    (query currentPath : String) (x : FileSuggestion)
    (hx : x ∈ filterFromCache root cache query currentPath) :
    x ∈ searchCandidates root cache query currentPath := by
  unfold filterFromCache at hx
  have h1 : x ∈ jsSortBy (rankCmp (lowerStr query))
      (searchCandidates root cache query currentPath) :=
    List.mem_of_mem_take hx
  unfold jsSortBy at h1
  exact (List.mem_insertionSort _).mp h1

theorem buildStep_files (root : String) (acc : BuildAcc) (rel : String) :
    (buildStep root acc rel).files = acc.files ++ [buildEntry root rel] := rfl

theorem foldl_buildStep_files (root : String) :
    ∀ (uris : List String) (acc : BuildAcc),
      (uris.foldl (buildStep root) acc).files = acc.files ++ uris.map (buildEntry root) := by
  intro uris
  induction uris with
  | nil => intro acc; simp
  | cons u rest ih =>
    intro acc
    rw [List.foldl_cons, ih, buildStep_files]
    simp

/-- The file list of a built snapshot is exactly the enumerated relative paths
turned into file suggestions, in enumeration order. -/
theorem buildCache_files (root : String) (uris : List String) (t : Nat) :
    (buildCache root uris t).files = uris.map (buildEntry root) := by
  simp only [buildCache]
  rw [foldl_buildStep_files]
  simp

theorem buildEntry_type (root rel : String) : (buildEntry root rel).type = FType.file := rfl

/-! Claim C6. -/

/-- Counterexample to claim C6: with the single file `a/b/x.ts`, query `"a"`
and scope `"a/b"`, the search returns the folder `a` — the segment `a`
matches — but `a` lies outside the scope subtree `a/b` (it is an ancestor of
the scope), so not every returned entry lies within the scope subtree. -/
theorem scope_escape_cex :
    folderSuggestion "/w" "a" "a" ∈
        filterFromCache "/w" (buildCache "/w" ["a/b/x.ts"] 0) "a" "a/b" ∧
      scopePasses "a/b" "a" = false := by
  decide

/-- Claim C6 as amended: for a built snapshot and a non-empty query, every
returned file entry lies within the scope subtree and matches the query by
name or by a path segment; every returned folder entry has a name containing
the query and is a directory prefix (with an entry in the directory index) of
the path of some in-scope file — but such a folder can itself lie outside the
scope subtree (it may be an ancestor of the scope, as the counterexample
shows). -/
theorem search_scope_match (root : String) (uris : List String) (t : Nat)
    (query currentPath : String) (hq : query ≠ "") (x : FileSuggestion)
    (hx : x ∈ filterFromCache root (buildCache root uris t) query currentPath) :
    (x.type = FType.file →
      x ∈ (buildCache root uris t).files ∧
      scopePasses currentPath x.relativePath = true ∧
      fileHit (lowerStr query) x = true) ∧
    (x.type = FType.folder →
      strContains (lowerStr x.name) (lowerStr query) = true ∧
      mapHas (buildCache root uris t).directoryMap x.relativePath = true ∧
      ∃ f ∈ (buildCache root uris t).files,
        scopePasses currentPath f.relativePath = true ∧
        ∃ k, 0 < k ∧ k < (splitPath f.relativePath).length ∧
          x.relativePath = joinSegs ((splitPath f.relativePath).take k)) := by
  have horigin := searchCandidates_mem root (buildCache root uris t) query currentPath x
    (filterFromCache_mem root (buildCache root uris t) query currentPath x hx)
  rcases horigin with ⟨hmem, hsc, hhit⟩ | ⟨f, hf, hsc, i, hi, hxe, hmap, hname⟩
  · have htype : x.type = FType.file := by
      rw [buildCache_files] at hmem
      rcases List.mem_map.mp hmem with ⟨rel, _, hrel⟩
      rw [← hrel]
      rfl
    refine ⟨fun _ => ⟨hmem, hsc, hhit⟩, fun hfold => ?_⟩
    rw [htype] at hfold
    exact absurd hfold (by simp)
  · subst hxe
    refine ⟨fun hfile => ?_, fun _ => ?_⟩
    · exact absurd hfile (by simp [folderSuggestion])
    · refine ⟨hname, hmap, f, hf, hsc, i + 1, by omega, hi, rfl⟩

/-- Witness for the amended claim C6 at a concrete search. -/
theorem search_scope_match_witness :
    (("a" : String) ≠ "") ∧
      (folderSuggestion "/w" "a" "a" ∈
        filterFromCache "/w" (buildCache "/w" ["a/b/x.ts"] 0) "a" "a/b") ∧
      strContains (lowerStr (folderSuggestion "/w" "a" "a").name) (lowerStr "a") = true :=
  ⟨by decide, by decide,
    ((search_scope_match "/w" ["a/b/x.ts"] 0 "a" "a/b" (by decide)
          (folderSuggestion "/w" "a" "a") (by decide)).2 rfl).1⟩

/-! Splitting and joining of well-formed segment paths. -/

theorem splitChars_ne_nil : ∀ l : List Char, splitChars l ≠ []
  | [] => by simp [splitChars]
  | c :: cs => by
    simp only [splitChars]
    rcases h : splitChars cs with _ | ⟨h0, t0⟩
    · simp
    · by_cases hc : c = sepChar <;> simp [hc]

theorem splitChars_sep_append (a b : List Char) :
    splitChars (a ++ sepChar :: b) = splitChars a ++ splitChars b := by
  induction a with
  | nil =>
    obtain ⟨h0, t0, hb⟩ : ∃ h0 t0, splitChars b = h0 :: t0 := by
      rcases h : splitChars b with _ | ⟨h0, t0⟩
      · exact absurd h (splitChars_ne_nil b)
      · exact ⟨h0, t0, rfl⟩
    simp [splitChars, hb]
  | cons c cs ih =>
    obtain ⟨h0, t0, hcs⟩ : ∃ h0 t0, splitChars cs = h0 :: t0 := by
      rcases h : splitChars cs with _ | ⟨h0, t0⟩
      · exact absurd h (splitChars_ne_nil cs)
      · exact ⟨h0, t0, rfl⟩
    by_cases hc : c = sepChar
    · simp [splitChars, ih, hcs, hc]
    · simp [splitChars, ih, hcs, hc]

theorem splitChars_no_sep (l : List Char) (h : sepChar ∉ l) : splitChars l = [l] := by
  induction l with
  | nil => rfl
  | cons c cs ih =>
    have hc : c ≠ sepChar := fun he => h (by simp [he])
    have hcs : sepChar ∉ cs := fun hm => h (List.mem_cons_of_mem c hm)
    simp [splitChars, ih hcs, hc]

theorem splitChars_joinCh : ∀ segs : List (List Char), segs ≠ [] →
    (∀ s ∈ segs, sepChar ∉ s) → splitChars (joinCh segs) = segs
  | [], h, _ => absurd rfl h
  | [s], _, hv => by
    simp only [joinCh]
    exact splitChars_no_sep s (hv s (by simp))
  | s :: t :: r, _, hv => by
    simp only [joinCh]
    rw [splitChars_sep_append, splitChars_no_sep s (hv s (by simp)),
      splitChars_joinCh (t :: r) (by simp)
        (fun x hx => hv x (List.mem_cons_of_mem s hx))]
    simp

theorem splitPath_joinSegs (p : List String) (hne : p ≠ [])
    (hv : ∀ s ∈ p, sepChar ∉ s.data) : splitPath (joinSegs p) = p := by
  unfold splitPath joinSegs
  rw [show (String.mk (joinCh (p.map String.data))).data = joinCh (p.map String.data) from rfl]
  rw [splitChars_joinCh (p.map String.data) (by simpa using hne)
    (by
      intro s hs
      rcases List.mem_map.mp hs with ⟨x, hx, he⟩
      rw [← he]
      exact hv x hx)]
  rw [List.map_map]
  have hcomp : (fun l => String.mk l) ∘ String.data = id := by
    funext s
    exact mk_data s
  rw [hcomp, List.map_id]

theorem joinCh_ne_nil : ∀ (s : List Char) (rest : List (List Char)),
    s ≠ [] → joinCh (s :: rest) ≠ []
  | s, [], hs => by simpa [joinCh] using hs
  | s, t :: r, hs => by
    simp only [joinCh]
    intro h
    exact hs (List.append_eq_nil.mp h).1

theorem joinSegs_ne_empty (p : List String) (hne : p ≠ [])
    (hv : ∀ s ∈ p, s ≠ "") : joinSegs p ≠ "" := by
  rcases p with _ | ⟨s, rest⟩
  · exact absurd rfl hne
  · intro h
    have hd : joinCh ((s :: rest).map String.data) = [] := by
      have := congrArg String.data h
      simpa [joinSegs] using this
    have hs : s.data ≠ [] := by
      intro h2
      exact hv s (by simp) (strData_inj h2)
    exact joinCh_ne_nil s.data (rest.map String.data) hs (by simpa [List.map_cons] using hd)

/-! Set and map accumulation lemmas. -/

theorem setAdd_mem {s : List String} {x : String} (y : String) (h : x ∈ s) :
    x ∈ setAdd s y := by
  unfold setAdd
  split
  · exact h
  · exact List.mem_append_left _ h

theorem setAdd_self (s : List String) (y : String) : y ∈ setAdd s y := by
  unfold setAdd
  split
  · next h => simpa using h
  · exact List.mem_append_right _ (by simp)

theorem foldl_setAdd_preserve {β : Type} (g : β → String) :
    ∀ (bs : List β) (s : List String) (x : String), x ∈ s →
      x ∈ bs.foldl (fun acc b => setAdd acc (g b)) s := by
  intro bs
  induction bs with
  | nil => intro s x h; exact h
  | cons b rest ih => intro s x h; exact ih _ x (setAdd_mem (g b) h)

theorem foldl_setAdd_self {β : Type} (g : β → String) :
    ∀ (bs : List β) (s : List String) (b0 : β), b0 ∈ bs →
      g b0 ∈ bs.foldl (fun acc b => setAdd acc (g b)) s := by
  intro bs
  induction bs with
  | nil => intro s b0 h; simp at h
  | cons b rest ih =>
    intro s b0 h
    rcases List.mem_cons.mp h with he | hm
    · subst he
      exact foldl_setAdd_preserve g rest _ _ (setAdd_self s (g b0))
    · exact ih _ b0 hm

theorem mapAddEmpty_has_mono {α : Type} (m : List (String × List α)) (k k2 : String)
    (h : mapHas m k = true) : mapHas (mapAddEmpty m k2) k = true := by
  unfold mapAddEmpty
  split
  · exact h
  · simp only [mapHas, List.any_append] at *
    simp [h]

theorem mapAddEmpty_has_self {α : Type} (m : List (String × List α)) (k : String) :
    mapHas (mapAddEmpty m k) k = true := by
  unfold mapAddEmpty
  split
  · next h => exact h
  · simp [mapHas, List.any_append]

theorem foldl_mapAddEmpty_mono {α : Type} :
    ∀ (fs : List String) (m : List (String × List α)) (k : String),
      mapHas m k = true →
      mapHas (fs.foldl (fun m2 f => mapAddEmpty m2 f) m) k = true := by
  intro fs
  induction fs with
  | nil => intro m k h; exact h
  | cons f rest ih => intro m k h; exact ih _ k (mapAddEmpty_has_mono m k f h)

theorem foldl_mapAddEmpty_self {α : Type} :
    ∀ (fs : List String) (m : List (String × List α)) (k : String), k ∈ fs →
      mapHas (fs.foldl (fun m2 f => mapAddEmpty m2 f) m) k = true := by
  intro fs
  induction fs with
  | nil => intro m k h; simp at h
  | cons f rest ih =>
    intro m k h
    rcases List.mem_cons.mp h with he | hm
    · subst he
      exact foldl_mapAddEmpty_mono rest _ k (mapAddEmpty_has_self m k)
    · exact ih _ k hm

/-! The folders accumulated by the cache builder. -/

theorem buildStep_folders_mono (root : String) (acc : BuildAcc) (rel : String)
    {x : String} (h : x ∈ acc.folders) : x ∈ (buildStep root acc rel).folders := by
  simp only [buildStep]
  split
  · exact h
  · exact foldl_setAdd_preserve _ _ _ x (setAdd_mem _ h)

theorem foldl_buildStep_folders_mono (root : String) :
    ∀ (uris : List String) (acc : BuildAcc) (x : String), x ∈ acc.folders →
      x ∈ (uris.foldl (buildStep root) acc).folders := by
  intro uris
  induction uris with
  | nil => intro acc x h; exact h
  | cons u rest ih =>
    intro acc x h
    exact ih _ x (buildStep_folders_mono root acc u h)

theorem buildStep_folders_mem (root : String) (acc : BuildAcc) {p : List String}
    (hv : ∀ s ∈ p, s ≠ "" ∧ sepChar ∉ s.data) {k : Nat}
    (hk0 : 0 < k) (hk : k < p.length) :
    joinSegs (p.take k) ∈ (buildStep root acc (joinSegs p)).folders := by
  have hne : p ≠ [] := by
    intro h
    rw [h] at hk
    simp at hk
  have hsplit : splitPath (joinSegs p) = p :=
    splitPath_joinSegs p hne (fun s hs => (hv s hs).2)
  have hdir : parseDir (joinSegs p) = joinSegs p.dropLast := by
    unfold parseDir
    rw [hsplit]
  have hdl_len : p.dropLast.length = p.length - 1 := List.length_dropLast p
  have hdl_ne : p.dropLast ≠ [] := by
    intro h
    rw [h] at hdl_len
    simp at hdl_len
    omega
  have hdl_sub : ∀ s ∈ p.dropLast, s ∈ p := fun s hs => (List.dropLast_sublist p).subset hs
  have hdir_ne : joinSegs p.dropLast ≠ "" :=
    joinSegs_ne_empty p.dropLast hdl_ne (fun s hs => (hv s (hdl_sub s hs)).1)
  have hcond : (joinSegs p.dropLast == "") = false := by
    simp [hdir_ne]
  have hparts : splitPath (joinSegs p.dropLast) = p.dropLast :=
    splitPath_joinSegs p.dropLast hdl_ne (fun s hs => (hv s (hdl_sub s hs)).2)
  simp only [buildStep, hdir, hcond, Bool.false_eq_true, if_false, hparts]
  have htake : p.dropLast.take k = p.take k := by
    rw [List.dropLast_eq_take, List.take_take]
    congr 1
    omega
  have hmem := foldl_setAdd_self (fun i => joinSegs (p.dropLast.take (i + 1)))
    (List.range p.dropLast.length) (setAdd acc.folders (joinSegs p.dropLast)) (k - 1)
    (List.mem_range.mpr (by omega))
  have hkk : k - 1 + 1 = k := by omega
  have hgoal : joinSegs (List.take k p) = joinSegs (List.take (k - 1 + 1) p.dropLast) := by
    rw [hkk, htake]
  rw [hgoal]
  exact hmem

theorem foldl_build_folders_mem (root : String) :
    ∀ (paths : List (List String)) (acc : BuildAcc) (p : List String), p ∈ paths →
      (∀ s ∈ p, s ≠ "" ∧ sepChar ∉ s.data) → ∀ k, 0 < k → k < p.length →
      joinSegs (p.take k) ∈ ((paths.map joinSegs).foldl (buildStep root) acc).folders := by
  intro paths
  induction paths with
  | nil => intro acc p hp; simp at hp
  | cons q rest ih =>
    intro acc p hp hv k hk0 hk
    rcases List.mem_cons.mp hp with he | hm
    · subst he
      simp only [List.map_cons, List.foldl_cons]
      exact foldl_buildStep_folders_mono root _ _ _
        (buildStep_folders_mem root acc hv hk0 hk)
    · simp only [List.map_cons, List.foldl_cons]
      exact ih _ p hm hv k hk0 hk

/-! Claim C3. -/

/-- Claim C3: in every snapshot produced by a successful build whose enumerated
paths are well-formed segment lists (nonempty separator-free segments), every
directory that appears as a proper prefix of a file entry relative path —
`joinSegs (p.take k)` for `0 < k < p.length` — is present as a key of the
directory index. -/
theorem build_directory_index_complete (root : String) (paths : List (List String))
    (t : Nat) (hval : ∀ p ∈ paths, ∀ s ∈ p, s ≠ "" ∧ sepChar ∉ s.data)
    (p : List String) (hp : p ∈ paths) (k : Nat) (hk0 : 0 < k) (hk : k < p.length) :
    mapHas (buildCache root (paths.map joinSegs) t).directoryMap
      (joinSegs (p.take k)) = true := by
  simp only [buildCache]
  exact foldl_mapAddEmpty_self _ _ _
    (foldl_build_folders_mem root paths ⟨[], [], []⟩ p hp (hval p hp) k hk0 hk)

/-- Witness for claim C3: the two ancestors of `a/b/x.ts` are both keys. -/
theorem build_directory_index_complete_witness :
    mapHas (buildCache "/w" ([["a", "b", "x.ts"]].map joinSegs) 0).directoryMap
        (joinSegs ([["a", "b", "x.ts"]].headD []|>.take 1)) = true ∧
      mapHas (buildCache "/w" ([["a", "b", "x.ts"]].map joinSegs) 0).directoryMap
        (joinSegs ([["a", "b", "x.ts"]].headD []|>.take 2)) = true :=
  ⟨build_directory_index_complete "/w" [["a", "b", "x.ts"]] 0 (by decide)
      ["a", "b", "x.ts"] (by simp) 1 (by omega) (by simp),
    build_directory_index_complete "/w" [["a", "b", "x.ts"]] 0 (by decide)
      ["a", "b", "x.ts"] (by simp) 2 (by omega) (by simp)⟩

/-! Shape of the synthesized subdirectory paths in browse mode. -/

theorem splitChars_pieces_no_sep (l : List Char) :
    ∀ piece ∈ splitChars l, sepChar ∉ piece := by
  induction l with
  | nil =>
    intro piece hp
    simp [splitChars] at hp
    subst hp
    simp
  | cons c cs ih =>
    intro piece hp
    obtain ⟨h0, t0, hcs⟩ : ∃ h0 t0, splitChars cs = h0 :: t0 := by
      rcases h : splitChars cs with _ | ⟨h0, t0⟩
      · exact absurd h (splitChars_ne_nil cs)
      · exact ⟨h0, t0, rfl⟩
    by_cases hc : c = sepChar
    · rw [show splitChars (c :: cs) = [] :: splitChars cs by simp [splitChars, hcs, hc]] at hp
      rcases List.mem_cons.mp hp with he | hm
      · subst he
        simp
      · exact ih piece hm
    · rw [show splitChars (c :: cs) = (c :: h0) :: t0 by simp [splitChars, hcs, hc]] at hp
      rcases List.mem_cons.mp hp with he | hm
      · subst he
        intro hmem
        rcases List.mem_cons.mp hmem with he2 | hm2
        · exact hc he2.symm
        · exact ih h0 (by rw [hcs]; exact List.mem_cons_self h0 t0) hm2
      · exact ih piece (by rw [hcs]; exact List.mem_cons_of_mem h0 hm)

theorem splitPath_pieces_no_sep (s : String) :
    ∀ x ∈ splitPath s, sepChar ∉ x.data := by
  intro x hx
  rcases List.mem_map.mp hx with ⟨piece, hp, he⟩
  rw [← he]
  exact splitChars_pieces_no_sep s.data piece hp

theorem parseBase_no_sep (x : String) (h : sepChar ∉ x.data) : parseBase x = x := by
  unfold parseBase splitPath
  rw [splitChars_no_sep x.data h]
  simp [mk_data]

theorem append_sep_data (cp n : String) :
    (cp ++ "/" ++ n).data = (cp.data ++ [sepChar]) ++ n.data := by
  rw [append_data, append_data]
  rfl

theorem parseBase_append_seg (cp n : String) (hn : sepChar ∉ n.data) :
    parseBase (cp ++ "/" ++ n) = n := by
  unfold parseBase splitPath
  rw [show (cp ++ "/" ++ n).data = cp.data ++ sepChar :: n.data by
    rw [append_sep_data]; simp]
  rw [splitChars_sep_append, splitChars_no_sep n.data hn, List.map_append]
  simp [mk_data]

theorem cmpChars_append_same : ∀ (pre x y : List Char),
    cmpChars (pre ++ x) (pre ++ y) = cmpChars x y := by
  intro pre
  induction pre with
  | nil => intro x y; rfl
  | cons c cs ih => intro x y; simp [cmpChars, lt_irrefl, ih]

theorem strCmp_append_seg (cp n1 n2 : String) :
    strCmp (cp ++ "/" ++ n1) (cp ++ "/" ++ n2) = strCmp n1 n2 := by
  unfold strCmp
  rw [append_sep_data, append_sep_data, cmpChars_append_same]

theorem strCmp_le_trans {a b c : String}
    (h1 : strCmp a b ≠ Ordering.gt) (h2 : strCmp b c ≠ Ordering.gt) :
    strCmp a c ≠ Ordering.gt := cmpChars_le_trans h1 h2

theorem strCmp_le_total (a b : String) :
    strCmp a b ≠ Ordering.gt ∨ strCmp b a ≠ Ordering.gt := cmpChars_le_total a.data b.data

/-- The shape of every path in the synthesized subdirectory set of a browse:
at the root a separator-free first segment, inside a directory the scope path
extended by one separator-free nonempty segment. -/
def subdirShape (cp x : String) : Prop :=
  if cp = "" then sepChar ∉ x.data
  else ∃ n, sepChar ∉ n.data ∧ n ≠ "" ∧ x = cp ++ "/" ++ n

theorem setAdd_cases {s : List String} {x y : String} (h : x ∈ setAdd s y) :
    x ∈ s ∨ x = y := by
  unfold setAdd at h
  split at h
  · exact Or.inl h
  · rcases List.mem_append.mp h with h2 | h2
    · exact Or.inl h2
    · exact Or.inr (by simpa using h2)

theorem splitPath_getD_mem (s : String) : (splitPath s).getD 0 "" ∈ splitPath s := by
  obtain ⟨h0, t0, hsp⟩ : ∃ h0 t0, splitChars s.data = h0 :: t0 := by
    rcases h : splitChars s.data with _ | ⟨h0, t0⟩
    · exact absurd h (splitChars_ne_nil s.data)
    · exact ⟨h0, t0, rfl⟩
  unfold splitPath
  rw [hsp]
  simp

theorem browseSubdirsStep_mem (cp : String) (s : List String) (f : FileSuggestion)
    (x : String) (hx : x ∈ browseSubdirsStep cp s f) : x ∈ s ∨ subdirShape cp x := by
  unfold browseSubdirsStep at hx
  by_cases hcp : cp = ""
  · have hcpb : (cp == "") = true := by simp [hcp]
    simp only [hcpb, if_true] at hx
    split at hx
    · split at hx
      · rcases setAdd_cases hx with h | h
        · exact Or.inl h
        · refine Or.inr ?_
          unfold subdirShape
          rw [if_pos hcp, h]
          exact splitPath_pieces_no_sep f.relativePath _ (splitPath_getD_mem f.relativePath)
      · exact Or.inl hx
    · exact Or.inl hx
  · have hcpb : (cp == "") = false := by simp [hcp]
    simp only [hcpb, Bool.false_eq_true, if_false] at hx
    split at hx
    · split at hx
      · next hguard =>
        rcases setAdd_cases hx with h | h
        · exact Or.inl h
        · refine Or.inr ?_
          unfold subdirShape
          rw [if_neg hcp]
          set rtc := String.mk ((dirname f.relativePath).data.drop (cp.data.length + 1))
          refine ⟨(splitPath rtc).getD 0 "", splitPath_pieces_no_sep rtc _ (splitPath_getD_mem rtc), by simpa using hguard, ?_⟩
          rw [h]
          unfold joinPath
          rw [if_neg (by simp [hcp]), if_neg (by simpa using hguard)]
      · exact Or.inl hx
    · exact Or.inl hx

theorem foldl_browseSubdirs_shape (cp : String) :
    ∀ (files : List FileSuggestion) (s : List String) (x : String),
      (∀ y ∈ s, subdirShape cp y) → x ∈ files.foldl (browseSubdirsStep cp) s →
      subdirShape cp x := by
  intro files
  induction files with
  | nil => intro s x hs hx; exact hs x hx
  | cons f rest ih =>
    intro s x hs hx
    refine ih (browseSubdirsStep cp s f) x ?_ hx
    intro y hy
    rcases browseSubdirsStep_mem cp s f y hy with h | h
    · exact hs y h
    · exact h

theorem setDelete_subset {s : List String} {p x : String} (h : x ∈ setDelete s p) :
    x ∈ s := List.mem_of_mem_filter h

theorem foldl_setDelete_subset :
    ∀ (fs : List String) (s : List String) (x : String),
      x ∈ fs.foldl (fun s2 p => setDelete s2 p) s → x ∈ s := by
  intro fs
  induction fs with
  | nil => intro s x h; exact h
  | cons f rest ih => intro s x h; exact setDelete_subset (ih _ x h)

/-! Claim C7. -/

/-- Counterexample to claim C7: browsing the root of the workspace
`B/x.ts, a/y.ts, B.txt, a.txt` returns folders `B, a` (sorted by
case-sensitive code-unit order of their paths) followed by files
`a.txt, B.txt` (sorted by the case-insensitive locale order of their names).
No single case convention explains both groups: under the case-sensitive
comparison the file pair `a.txt, B.txt` is descending, and under a
case-insensitive comparison the folder pair `B, a` is descending — the two
groups use mixed conventions. -/
theorem browse_mixed_convention_cex :
    (search ⟨"/w", some (buildCache "/w" ["B/x.ts", "a/y.ts", "B.txt", "a.txt"] 0)⟩ "" ""
        (Except.ok []) (Except.error ()) 0).2 =
      [folderSuggestion "/w" "B" "B", folderSuggestion "/w" "a" "a",
        buildEntry "/w" "a.txt", buildEntry "/w" "B.txt"] ∧
      strCmp "a.txt" "B.txt" = Ordering.gt ∧
      cmpChars (lowerStr "B").data (lowerStr "a").data = Ordering.gt := by
  decide

/-- The ordering that browse mode actually guarantees: folders before files;
folder names ascending under the case-sensitive code-unit comparison; file
names ascending under the case-insensitive locale comparison. -/
def browseOrderedLe (a b : FileSuggestion) : Prop :=
  (a.type = FType.folder ∨ b.type = FType.file) ∧
  (a.type = FType.folder → b.type = FType.folder → strCmp a.name b.name ≠ Ordering.gt) ∧
  (a.type = FType.file → b.type = FType.file → localeCmp a.name b.name ≠ Ordering.gt)

/-- Claim C7 as amended: for every cache-served directory browse over a built
snapshot, all folder entries precede all file entries; the folder group is in
ascending case-sensitive (code-unit) lexicographic order of names, while the
file group is in ascending case-insensitive (locale) order of names — two
different conventions, one per group, rather than one consistent convention. -/
theorem browse_order_amended (root : String) (uris : List String) (t : Nat)
    (currentPath : String) :
    List.Pairwise browseOrderedLe
      (browseFromCache root (buildCache root uris t) currentPath) := by
  have hfiles_type : ∀ x ∈ (buildCache root uris t).files, x.type = FType.file := by
    intro x hx
    rw [buildCache_files] at hx
    rcases List.mem_map.mp hx with ⟨rel, _, he⟩
    rw [← he]
    rfl
  simp only [browseFromCache]
  rw [List.pairwise_append]
  refine ⟨?_, ?_, ?_⟩
  · -- the folder block
    rw [List.pairwise_map]
    have hsorted : List.Pairwise (fun p q => strCmp p q ≠ Ordering.gt)
        (jsSortBy strCmp (browseSubdirs (buildCache root uris t) currentPath)) := by
      haveI : IsTrans String (fun p q => strCmp p q ≠ Ordering.gt) :=
        ⟨fun _ _ _ h1 h2 => strCmp_le_trans h1 h2⟩
      haveI : IsTotal String (fun p q => strCmp p q ≠ Ordering.gt) :=
        ⟨strCmp_le_total⟩
      exact List.sorted_insertionSort _ _
    have hshape : ∀ p ∈ jsSortBy strCmp (browseSubdirs (buildCache root uris t) currentPath),
        subdirShape currentPath p := by
      intro p hp
      unfold jsSortBy at hp
      have hp2 := (List.mem_insertionSort _).mp hp
      unfold browseSubdirs at hp2
      have hp3 := foldl_setDelete_subset _ _ _ hp2
      exact foldl_browseSubdirs_shape currentPath _ _ _ (by intro y hy; simp at hy) hp3
    refine hsorted.imp_of_mem ?_
    intro p q hp hq hle
    refine ⟨Or.inl rfl, fun _ _ => ?_, fun hf _ => absurd hf (by simp [folderSuggestion])⟩
    show strCmp (parseBase p) (parseBase q) ≠ Ordering.gt
    have hsp := hshape p hp
    have hsq := hshape q hq
    unfold subdirShape at hsp hsq
    by_cases hcp : currentPath = ""
    · rw [if_pos hcp] at hsp hsq
      rw [parseBase_no_sep p hsp, parseBase_no_sep q hsq]
      exact hle
    · rw [if_neg hcp] at hsp hsq
      rcases hsp with ⟨n1, hn1s, hn1e, hpe⟩
      rcases hsq with ⟨n2, hn2s, hn2e, hqe⟩
      rw [hpe, hqe, parseBase_append_seg _ _ hn1s, parseBase_append_seg _ _ hn2s]
      rw [hpe, hqe, strCmp_append_seg] at hle
      exact hle
  · -- the file block
    have hsorted : List.Pairwise
        (fun a b : FileSuggestion => localeCmp a.name b.name ≠ Ordering.gt)
        (jsSortBy (fun a b => localeCmp a.name b.name)
          ((browseFilesInDir (buildCache root uris t) currentPath).filterMap
            (fun relPath => (buildCache root uris t).files.find?
              (fun f => f.relativePath == relPath)))) := by
      haveI : IsTrans FileSuggestion
          (fun a b : FileSuggestion => localeCmp a.name b.name ≠ Ordering.gt) :=
        ⟨fun _ _ _ h1 h2 => localeCmp_le_trans h1 h2⟩
      haveI : IsTotal FileSuggestion
          (fun a b : FileSuggestion => localeCmp a.name b.name ≠ Ordering.gt) :=
        ⟨fun a b => localeCmp_le_total a.name b.name⟩
      exact List.sorted_insertionSort _ _
    have htype : ∀ x ∈ jsSortBy (fun a b : FileSuggestion => localeCmp a.name b.name)
        ((browseFilesInDir (buildCache root uris t) currentPath).filterMap
          (fun relPath => (buildCache root uris t).files.find?
            (fun f => f.relativePath == relPath))),
        x.type = FType.file := by
      intro x hx
      unfold jsSortBy at hx
      have hx2 := (List.mem_insertionSort _).mp hx
      rcases List.mem_filterMap.mp hx2 with ⟨relPath, _, hfind⟩
      exact hfiles_type x (List.mem_of_find?_eq_some hfind)
    refine hsorted.imp_of_mem ?_
    intro a b ha hb hle
    exact ⟨Or.inr (htype b hb), fun hf => absurd (htype a ha) (by rw [hf]; simp),
      fun _ _ => hle⟩
  · -- folders precede files
    intro a ha b hb
    rcases List.mem_map.mp ha with ⟨p, _, hpe⟩
    have haty : a.type = FType.folder := by rw [← hpe]; rfl
    have hbty : b.type = FType.file := by
      unfold jsSortBy at hb
      have hb2 := (List.mem_insertionSort _).mp hb
      rcases List.mem_filterMap.mp hb2 with ⟨relPath, _, hfind⟩
      exact hfiles_type b (List.mem_of_find?_eq_some hfind)
    exact ⟨Or.inl haty, fun _ hbf => absurd hbty (by rw [hbf]; simp),
      fun haf _ => absurd haty (by rw [haf]; simp)⟩

/-- Witness-style corollary is unnecessary: `browse_order_amended` has no
propositional hypotheses. -/
theorem browse_order_amended_example :
    List.Pairwise browseOrderedLe
      (browseFromCache "/w" (buildCache "/w" ["B/x.ts", "a/y.ts", "B.txt", "a.txt"] 0) "") :=
  browse_order_amended "/w" ["B/x.ts", "a/y.ts", "B.txt", "a.txt"] 0 ""

/-! String-prefix facts and the separator-boundary lemma, used to show that
synthesized folder paths are always proper directory prefixes of file paths. -/

theorem band_right {a b : Bool} (h : (a && b) = true) : b = true := by
  rcases b
  · rcases a <;> simp at h
  · rfl

theorem isPrefixOf_exists {α : Type} [BEq α] [LawfulBEq α] :
    ∀ (p l : List α), p.isPrefixOf l = true → ∃ t, l = p ++ t
  | [], l, _ => ⟨l, rfl⟩
  | a :: as, [], h => by simp [List.isPrefixOf] at h
  | a :: as, b :: bs, h => by
    have h0 : ((a == b) && as.isPrefixOf bs) = true := h
    obtain ⟨t, ht⟩ := isPrefixOf_exists as bs (band_right h0)
    exact ⟨t, by rw [ht, eq_of_beq (band_left h0)]; rfl⟩

theorem strStarts_exists {s p : String} (h : strStarts s p = true) :
    ∃ rest, s.data = p.data ++ rest := by
  unfold strStarts at h
  obtain ⟨t, ht⟩ := isPrefixOf_exists p.data s.data h
  exact ⟨t, ht⟩

theorem strStarts_length {s p : String} (h : strStarts s p = true) :
    p.data.length ≤ s.data.length := by
  obtain ⟨rest, hr⟩ := strStarts_exists h
  rw [hr]
  simp

theorem joinSegs_singleton (s : String) : joinSegs [s] = s := rfl

theorem joinCh_concat : ∀ (as : List (List Char)) (d : List Char), as ≠ [] →
    joinCh (as ++ [d]) = joinCh as ++ sepChar :: d
  | [], d, h => absurd rfl h
  | [a], d, _ => rfl
  | a :: a2 :: rest, d, _ => by
    have ih : joinCh (a2 :: (rest ++ [d])) = joinCh (a2 :: rest) ++ sepChar :: d :=
      joinCh_concat (a2 :: rest) d (by simp)
    show a ++ sepChar :: joinCh (a2 :: (rest ++ [d])) =
      (a ++ sepChar :: joinCh (a2 :: rest)) ++ sepChar :: d
    rw [ih]
    simp

theorem joinSegs_concat (p : List String) (d : String) (h : p ≠ []) :
    joinSegs (p ++ [d]) = joinSegs p ++ "/" ++ d := by
  apply strData_inj
  rw [append_sep_data]
  show joinCh ((p ++ [d]).map String.data) = (joinSegs p).data ++ [sepChar] ++ d.data
  rw [List.map_append]
  simp only [List.map_cons, List.map_nil]
  rw [joinCh_concat (p.map String.data) d.data (by simpa using h)]
  simp [joinSegs, List.append_assoc]

/-- Well-formed segment list of a relative path: nonempty; each segment
nonempty, separator-free and not the special name `.`. -/
def validSegList (p : List String) : Prop :=
  p ≠ [] ∧ ∀ s ∈ p, s ≠ "" ∧ sepChar ∉ s.data ∧ s ≠ "."

theorem joinSegs_ne_dot {p : List String} (hv : validSegList p) : joinSegs p ≠ "." := by
  rcases p with _ | ⟨s, rest⟩
  · exact absurd rfl hv.1
  · rcases rest with _ | ⟨t, r⟩
    · rw [joinSegs_singleton]
      exact (hv.2 s (by simp)).2.2
    · intro h
      have hlen := congrArg (fun x => x.data.length) h
      simp only [joinSegs] at hlen
      have hs : s.data ≠ [] := fun h2 => (hv.2 s (by simp)).1 (strData_inj h2)
      have hstep : (joinCh ((s :: t :: r).map String.data)).length =
          s.data.length + 1 + (joinCh ((t :: r).map String.data)).length := by
        show (s.data ++ sepChar :: joinCh ((t :: r).map String.data)).length = _
        simp
        omega
      rw [hstep] at hlen
      have hpos : 1 ≤ s.data.length := by
        rcases hd : s.data with _ | _
        · exact absurd hd hs
        · simp
      simp only [List.length_cons, List.length_nil] at hlen
      omega

theorem joinSegs_inj {p q : List String} (hp : validSegList p) (hq : validSegList q)
    (h : joinSegs p = joinSegs q) : p = q := by
  have h1 : splitPath (joinSegs p) = p :=
    splitPath_joinSegs p hp.1 (fun s hs => (hp.2 s hs).2.1)
  have h2 : splitPath (joinSegs q) = q :=
    splitPath_joinSegs q hq.1 (fun s hs => (hq.2 s hs).2.1)
  rw [← h1, ← h2, h]

theorem validSegList_take {p : List String} (hv : validSegList p) {k : Nat}
    (hk0 : 0 < k) : validSegList (p.take k) := by
  constructor
  · rcases p with _ | ⟨s, rest⟩
    · exact absurd rfl hv.1
    · rcases k with _ | k2
      · omega
      · simp
  · intro s hs
    exact hv.2 s (List.take_subset k p hs)

/-- If a path followed by a separator is a character-level prefix of a joined
segment list with separator-free segments, the path is the join of a proper
prefix of the segments, and the remainder is the join of the rest. -/
theorem joinCh_sep_boundary :
    ∀ (segs : List (List Char)), (∀ s ∈ segs, sepChar ∉ s) →
    ∀ (c rest : List Char), c ++ sepChar :: rest = joinCh segs →
    ∃ j, 0 < j ∧ j < segs.length ∧ c = joinCh (segs.take j) ∧
      rest = joinCh (segs.drop j)
  | [], _, c, rest, h => by simp [joinCh] at h
  | [s], hv, c, rest, h => by
    exfalso
    apply hv s (by simp)
    rw [joinCh] at h
    rw [← h]
    simp
  | s :: t :: r, hv, c, rest, h => by
    rw [show joinCh (s :: t :: r) = s ++ sepChar :: joinCh (t :: r) from rfl] at h
    rcases Nat.lt_trichotomy c.length s.length with hlt | heq | hgt
    · exfalso
      apply hv s (by simp)
      have htake : (c ++ sepChar :: rest).take (c.length + 1) = c ++ [sepChar] := by
        rw [List.take_append]
        simp
      have htake2 : (s ++ sepChar :: joinCh (t :: r)).take (c.length + 1) =
          s.take (c.length + 1) := List.take_append_of_le_length (by omega)
      rw [h] at htake
      rw [htake2] at htake
      have : sepChar ∈ s.take (c.length + 1) := by
        rw [htake]
        simp
      exact List.take_subset _ s this
    · have := List.append_inj h (by omega)
      obtain ⟨hc, hr⟩ := this
      have hrest : rest = joinCh (t :: r) := by
        injection hr with _ h2
      refine ⟨1, by omega, by simp only [List.length_cons]; omega, ?_, ?_⟩
      · simpa [joinCh] using hc
      · simpa using hrest
    · have htake : (c ++ sepChar :: rest).take (s.length + 1) = c.take (s.length + 1) :=
        List.take_append_of_le_length (by omega)
      have htake2 : (s ++ sepChar :: joinCh (t :: r)).take (s.length + 1) =
          s ++ [sepChar] := by
        rw [List.take_append]
        simp
      rw [h] at htake
      rw [htake2] at htake
      have hcsplit : c = (s ++ [sepChar]) ++ c.drop (s.length + 1) := by
        conv =>
          lhs
          rw [← List.take_append_drop (s.length + 1) c]
        rw [htake]
      set c2 := c.drop (s.length + 1) with hc2
      have heq2 : c2 ++ sepChar :: rest = joinCh (t :: r) := by
        rw [hcsplit] at h
        rw [List.append_assoc, List.append_assoc] at h
        have := List.append_cancel_left h
        simpa using this
      obtain ⟨j2, hj0, hjlt, hcj, hrj⟩ := joinCh_sep_boundary (t :: r)
        (fun x hx => hv x (List.mem_cons_of_mem s hx)) c2 rest heq2
      have hjlt2 : j2 + 1 < (s :: t :: r).length := by
        simp only [List.length_cons] at hjlt ⊢
        omega
      refine ⟨j2 + 1, by omega, hjlt2, ?_, ?_⟩
      · obtain ⟨t2, hth⟩ : ∃ t2, (t :: r).take j2 = t :: t2 := by
          rcases j2 with _ | j3
          · omega
          · exact ⟨r.take j3, by simp⟩
        rw [show (s :: t :: r).take (j2 + 1) = s :: (t :: r).take j2 from by simp]
        rw [hth]
        rw [show joinCh (s :: t :: t2) = s ++ sepChar :: joinCh (t :: t2) from rfl]
        rw [← hth, ← hcj, hcsplit]
        simp
      · rw [show (s :: t :: r).drop (j2 + 1) = (t :: r).drop j2 from rfl]
        exact hrj

theorem dirname_joinSegs {p : List String} (hv : validSegList p) (hlen : 1 < p.length) :
    dirname (joinSegs p) = joinSegs p.dropLast := by
  unfold dirname
  rw [splitPath_joinSegs p hv.1 (fun s hs => (hv.2 s hs).2.1)]
  rw [if_neg (by omega)]
  unfold parseDir
  rw [splitPath_joinSegs p hv.1 (fun s hs => (hv.2 s hs).2.1)]

theorem dirname_joinSegs_short {p : List String} (hv : validSegList p)
    (hlen : p.length ≤ 1) : dirname (joinSegs p) = "." := by
  unfold dirname
  rw [splitPath_joinSegs p hv.1 (fun s hs => (hv.2 s hs).2.1), if_pos hlen]

theorem dropLast_take {α : Type} {p : List α} {k : Nat} (hk : k ≤ p.length - 1) :
    p.dropLast.take k = p.take k := by
  rw [List.dropLast_eq_take, List.take_take]
  congr 1
  omega

theorem take_succ_of_drop {α : Type} {l : List α} {j : Nat} {d : α} {r : List α}
    (h : l.drop j = d :: r) : l.take (j + 1) = l.take j ++ [d] := by
  rw [List.take_succ]
  congr 1
  have h2 : l[j]? = some d := by
    have h3 : (l.drop j)[0]? = some d := by rw [h]; simp
    rw [List.getElem?_drop] at h3
    simpa using h3
  rw [h2]
  rfl

/-- Every subdirectory path synthesized from a built file entry is the join of
a proper prefix of the segments of that file path. -/
theorem browseSubdirsStep_cases (root cp : String) (s : List String) {p : List String}
    (hv : validSegList p) (x : String)
    (hx : x ∈ browseSubdirsStep cp s (buildEntry root (joinSegs p))) :
    x ∈ s ∨ ∃ k, 0 < k ∧ k < p.length ∧ x = joinSegs (p.take k) := by
  have hvsep : ∀ s2 ∈ p, sepChar ∉ s2.data := fun s2 hs2 => (hv.2 s2 hs2).2.1
  have hsplit : splitPath (joinSegs p) = p := splitPath_joinSegs p hv.1 hvsep
  unfold browseSubdirsStep at hx
  rw [show (buildEntry root (joinSegs p)).relativePath = joinSegs p from rfl] at hx
  by_cases hcp : cp = ""
  · have hcpb : (cp == "") = true := by simp [hcp]
    simp only [hcpb, if_true, hsplit] at hx
    split at hx
    · next hlen =>
      split at hx
      · rcases setAdd_cases hx with h | h
        · exact Or.inl h
        · obtain ⟨p0, pr, hpe⟩ : ∃ p0 pr, p = p0 :: pr := by
            rcases p with _ | ⟨p0, pr⟩
            · exact absurd rfl hv.1
            · exact ⟨p0, pr, rfl⟩
          refine Or.inr ⟨1, by omega, hlen, ?_⟩
          rw [h, hpe]
          simp [joinSegs_singleton]
      · exact Or.inl hx
    · exact Or.inl hx
  · have hcpb : (cp == "") = false := by simp [hcp]
    simp only [hcpb, Bool.false_eq_true, if_false] at hx
    by_cases hplen : 1 < p.length
    · rw [dirname_joinSegs hv hplen] at hx
      rcases hstart : strStarts (joinSegs p.dropLast) (cp ++ "/") with _ | _
      · simp only [hstart, Bool.false_eq_true, if_false] at hx
        exact Or.inl hx
      · simp only [hstart, if_true] at hx
        have hdl_len : p.dropLast.length = p.length - 1 := List.length_dropLast p
        have hdl_sub : ∀ s2 ∈ p.dropLast, s2 ∈ p :=
          fun s2 hs2 => (List.dropLast_sublist p).subset hs2
        obtain ⟨rest, hrest⟩ := strStarts_exists hstart
        have heq : cp.data ++ sepChar :: rest = joinCh (p.dropLast.map String.data) := by
          have h2 : (joinSegs p.dropLast).data = joinCh (p.dropLast.map String.data) := rfl
          rw [← h2, hrest]
          rw [show (cp ++ "/").data = cp.data ++ [sepChar] from rfl]
          simp
        obtain ⟨j, hj0, hjlt, hcj, hrj⟩ := joinCh_sep_boundary (p.dropLast.map String.data)
          (by
            intro s2 hs2
            rcases List.mem_map.mp hs2 with ⟨y, hy, he⟩
            rw [← he]
            exact hvsep y (hdl_sub y hy)) cp.data rest heq
        rw [List.length_map] at hjlt
        have hrtc : (joinSegs p.dropLast).data.drop (cp.data.length + 1) = rest := by
          rw [show (joinSegs p.dropLast).data = joinCh (p.dropLast.map String.data) from rfl,
            ← heq]
          rw [show cp.data ++ sepChar :: rest = (cp.data ++ [sepChar]) ++ rest from by simp]
          rw [show cp.data.length + 1 = (cp.data ++ [sepChar]).length from by simp]
          exact List.drop_left _ _
        obtain ⟨dj, djr, hdj⟩ : ∃ dj djr, p.dropLast.drop j = dj :: djr := by
          rcases hd : p.dropLast.drop j with _ | ⟨dj, djr⟩
          · exfalso
            have := congrArg List.length hd
            simp at this
            omega
          · exact ⟨dj, djr, rfl⟩
        have hdjmem : dj ∈ p := by
          refine hdl_sub dj (List.drop_subset j p.dropLast ?_)
          rw [hdj]
          exact List.mem_cons_self dj djr
        have hrest2 : rest = joinCh ((dj :: djr).map String.data) := by
          rw [hrj, ← hdj, List.map_drop]
        have hsplit_rest : splitPath (String.mk rest) = dj :: djr := by
          unfold splitPath
          rw [show (String.mk rest).data = rest from rfl, hrest2]
          rw [splitChars_joinCh ((dj :: djr).map String.data) (by simp)
            (by
              intro s2 hs2
              rcases List.mem_map.mp hs2 with ⟨y, hy, he⟩
              rw [← he]
              refine hvsep y (hdl_sub y (List.drop_subset j p.dropLast ?_))
              rw [hdj]
              exact hy)]
          rw [List.map_map]
          have hcomp : (fun l => String.mk l) ∘ String.data = id := by
            funext s2
            exact mk_data s2
          rw [hcomp, List.map_id]
        rw [hrtc, hsplit_rest] at hx
        simp only [List.getD_cons_zero] at hx
        have hdj_ne : dj ≠ "" := (hv.2 dj hdjmem).1
        have hguard : (dj != "") = true := by simp [hdj_ne]
        simp only [hguard, if_true] at hx
        rcases setAdd_cases hx with h | h
        · exact Or.inl h
        · have hjp : joinPath cp dj = cp ++ "/" ++ dj := by
            unfold joinPath
            rw [if_neg (by simp [hcp]), if_neg (by simp [hdj_ne])]
          have hcp_eq : cp = joinSegs (p.dropLast.take j) := by
            apply strData_inj
            show cp.data = (joinSegs (p.dropLast.take j)).data
            rw [hcj]
            show joinCh ((p.dropLast.map String.data).take j) =
              joinCh ((p.dropLast.take j).map String.data)
            rw [List.map_take]
          have htakej : p.dropLast.take (j + 1) = p.dropLast.take j ++ [dj] :=
            take_succ_of_drop hdj
          have htake_ne : p.dropLast.take j ≠ [] := by
            intro hnil
            have := congrArg List.length hnil
            simp at this
            omega
          refine Or.inr ⟨j + 1, by omega, by omega, ?_⟩
          rw [h, hjp, ← dropLast_take (by omega : j + 1 ≤ p.length - 1), htakej,
            joinSegs_concat _ _ htake_ne, ← hcp_eq]
    · have hdn : dirname (joinSegs p) = "." := dirname_joinSegs_short hv (by omega)
      rw [hdn] at hx
      have hfalse : strStarts "." (cp ++ "/") = false := by
        rcases hb : strStarts "." (cp ++ "/") with _ | _
        · rfl
        · exfalso
          have hle := strStarts_length hb
          have h2 : (cp ++ "/").data.length = cp.data.length + 1 := by
            rw [show (cp ++ "/").data = cp.data ++ [sepChar] from rfl]
            simp
          have h3 : (("." : String)).data.length = 1 := rfl
          rw [h2, h3] at hle
          have hnil : cp.data = [] := List.eq_nil_of_length_eq_zero (by omega)
          exact hcp (strData_inj (by rw [hnil]))
      simp only [hfalse, Bool.false_eq_true, if_false] at hx
      exact Or.inl hx

theorem buildCache_files_mem {root : String} {paths : List (List String)} {t : Nat}
    {f : FileSuggestion} (hf : f ∈ (buildCache root (paths.map joinSegs) t).files) :
    ∃ p ∈ paths, f = buildEntry root (joinSegs p) := by
  rw [buildCache_files] at hf
  rcases List.mem_map.mp hf with ⟨rel, hrel, he⟩
  rcases List.mem_map.mp hrel with ⟨p, hp, he2⟩
  exact ⟨p, hp, by rw [← he, ← he2]⟩

theorem treeLike_join_ne {paths : List (List String)}
    (hval : ∀ p ∈ paths, validSegList p)
    (htree : ∀ p ∈ paths, ∀ q ∈ paths, p = q.take p.length → p = q)
    {p q : List String} (hp : p ∈ paths) (hq : q ∈ paths) {k : Nat}
    (hk0 : 0 < k) (hk : k < p.length) :
    joinSegs q ≠ joinSegs (p.take k) := by
  intro h
  have hq_eq : q = p.take k :=
    joinSegs_inj (hval q hq) (validSegList_take (hval p hp) hk0) h
  have hlen : q.length = k := by
    rw [hq_eq]
    simp [List.length_take]
    omega
  have hq_eq2 : q = p.take q.length := by
    rw [hlen]
    exact hq_eq
  have := htree q hq p hp hq_eq2
  rw [this] at hlen
  omega

theorem foldl_browseSubdirs_cases (root cp : String) (paths : List (List String))
    (hval : ∀ p ∈ paths, validSegList p) :
    ∀ (files : List FileSuggestion),
      (∀ f ∈ files, ∃ p ∈ paths, f = buildEntry root (joinSegs p)) →
      ∀ (s : List String),
        (∀ y ∈ s, ∃ p ∈ paths, ∃ k, 0 < k ∧ k < p.length ∧ y = joinSegs (p.take k)) →
        ∀ x, x ∈ files.foldl (browseSubdirsStep cp) s →
          ∃ p ∈ paths, ∃ k, 0 < k ∧ k < p.length ∧ x = joinSegs (p.take k) := by
  intro files
  induction files with
  | nil => intro _ s hs x hx; exact hs x hx
  | cons f rest ih =>
    intro hf s hs x hx
    obtain ⟨p, hp, hfe⟩ := hf f (List.mem_cons_self f rest)
    rw [List.foldl_cons, hfe] at hx
    refine ih (fun g hg => hf g (List.mem_cons_of_mem f hg))
      (browseSubdirsStep cp s (buildEntry root (joinSegs p))) ?_ x hx
    intro y hy
    rcases browseSubdirsStep_cases root cp s (hval p hp) y hy with h | ⟨k, hk0, hk, he⟩
    · exact hs y h
    · exact ⟨p, hp, k, hk0, hk, he⟩

theorem browseSubdirs_mem {root : String} {paths : List (List String)} {t : Nat}
    {cp x : String} (hval : ∀ p ∈ paths, validSegList p)
    (hx : x ∈ browseSubdirs (buildCache root (paths.map joinSegs) t) cp) :
    ∃ p ∈ paths, ∃ k, 0 < k ∧ k < p.length ∧ x = joinSegs (p.take k) := by
  unfold browseSubdirs at hx
  have hx2 := foldl_setDelete_subset _ _ _ hx
  exact foldl_browseSubdirs_cases root cp paths hval _
    (fun f hf => buildCache_files_mem hf) [] (by simp) x hx2

theorem joinPath_inj_right {cp n1 n2 : String} (hcp : cp ≠ "")
    (h : joinPath cp n1 = joinPath cp n2) : n1 = n2 := by
  have hcpb : (cp == "") = false := by simp [hcp]
  unfold joinPath at h
  rw [hcpb] at h
  simp only [Bool.false_eq_true, if_false] at h
  by_cases h1 : n1 = "" <;> by_cases h2 : n2 = ""
  · rw [h1, h2]
  · exfalso
    have hb1 : (n1 == "") = true := by simp [h1]
    have hb2 : (n2 == "") = false := by simp [h2]
    rw [hb1, hb2] at h
    simp only [if_true, Bool.false_eq_true, if_false] at h
    have hlen := congrArg (fun s => s.data.length) h
    simp only [append_sep_data, List.length_append, List.length_cons,
      List.length_nil] at hlen
    omega
  · exfalso
    have hb1 : (n1 == "") = false := by simp [h1]
    have hb2 : (n2 == "") = true := by simp [h2]
    rw [hb1, hb2] at h
    simp only [if_true, Bool.false_eq_true, if_false] at h
    have hlen := congrArg (fun s => s.data.length) h
    simp only [append_sep_data, List.length_append, List.length_cons,
      List.length_nil] at hlen
    omega
  · have hb1 : (n1 == "") = false := by simp [h1]
    have hb2 : (n2 == "") = false := by simp [h2]
    rw [hb1, hb2] at h
    simp only [Bool.false_eq_true, if_false] at h
    have := congrArg String.data h
    rw [append_sep_data, append_sep_data] at this
    exact strData_inj (List.append_cancel_left this)

theorem fsFold_mem (root cp : String) :
    ∀ (entries : List (String × FType)) (acc : List FileSuggestion) (x : FileSuggestion),
      x ∈ entries.foldl
        (fun acc2 e =>
          if e.1 == ".git" then acc2
          else if excludeMatches e.1 then acc2
          else acc2 ++ [fsEntrySuggestion root cp e]) acc →
      x ∈ acc ∨ ∃ e ∈ entries, x = fsEntrySuggestion root cp e := by
  intro entries
  induction entries with
  | nil => intro acc x hx; exact Or.inl hx
  | cons e rest ih =>
    intro acc x hx
    rw [List.foldl_cons] at hx
    rcases ih _ x hx with h | ⟨e2, he2, hxe⟩
    · by_cases hg : (e.1 == ".git") = true
      · rw [if_pos hg] at h
        exact Or.inl h
      · rw [if_neg hg] at h
        by_cases hex : excludeMatches e.1 = true
        · rw [if_pos hex] at h
          exact Or.inl h
        · rw [if_neg hex] at h
          rcases List.mem_append.mp h with h2 | h2
          · exact Or.inl h2
          · exact Or.inr ⟨e, List.mem_cons_self e rest, by simpa using h2⟩
    · exact Or.inr ⟨e2, List.mem_cons_of_mem e he2, hxe⟩

theorem getDirectoryContentsFs_mem {root cp : String}
    {fsDir : Except Unit (List (String × FType))} {x : FileSuggestion}
    (hx : x ∈ getDirectoryContentsFs root cp fsDir) :
    ∃ entries, fsDir = Except.ok entries ∧ ∃ e ∈ entries, x = fsEntrySuggestion root cp e := by
  unfold getDirectoryContentsFs at hx
  rcases fsDir with e | entries
  · simp at hx
  · refine ⟨entries, rfl, ?_⟩
    unfold jsSortBy at hx
    have hx2 := (List.mem_insertionSort _).mp hx
    rcases fsFold_mem root cp entries [] x hx2 with h | h
    · simp at h
    · exact h

/-! Claim C4. -/

/-- Claim C4: for snapshots built from a well-formed, tree-like enumeration
(no file path is a proper directory-prefix of another — the shape a real
filesystem guarantees), no relative path appears both as a file entry and as
a synthesized folder entry in any query result, in search mode or in browse
mode (including the filesystem fallback, whose listing has distinct entry
names). -/
theorem no_file_folder_collision (root : String) (paths : List (List String)) (t : Nat)
    (hval : ∀ p ∈ paths, validSegList p)
    (htree : ∀ p ∈ paths, ∀ q ∈ paths, p = q.take p.length → p = q)
    (query currentPath : String)
    (fsDir : Except Unit (List (String × FType)))
    (hfs : ∀ entries, fsDir = Except.ok entries → ((entries.map Prod.fst).Nodup)) :
    (∀ a ∈ filterFromCache root (buildCache root (paths.map joinSegs) t) query currentPath,
      ∀ b ∈ filterFromCache root (buildCache root (paths.map joinSegs) t) query currentPath,
        a.type = FType.file → b.type = FType.folder → a.relativePath ≠ b.relativePath) ∧
    (∀ a ∈ getDirectoryContents root (buildCache root (paths.map joinSegs) t)
        currentPath fsDir,
      ∀ b ∈ getDirectoryContents root (buildCache root (paths.map joinSegs) t)
        currentPath fsDir,
        a.type = FType.file → b.type = FType.folder → a.relativePath ≠ b.relativePath) := by
  have hfolder_rel : ∀ b : FileSuggestion,
      (∃ f ∈ (buildCache root (paths.map joinSegs) t).files,
        scopePasses currentPath f.relativePath = true ∧
        ∃ i, folderHitAt root (lowerStr query)
          (buildCache root (paths.map joinSegs) t).directoryMap
          (splitPath f.relativePath) i b) →
      ∃ p ∈ paths, ∃ k, 0 < k ∧ k < p.length ∧ b.relativePath = joinSegs (p.take k) := by
    intro b ⟨f, hf, _, i, hlt, hbe, _, _⟩
    obtain ⟨p, hp, hfe⟩ := buildCache_files_mem hf
    have hrel : f.relativePath = joinSegs p := by rw [hfe]; rfl
    have hsp : splitPath f.relativePath = p := by
      rw [hrel]
      exact splitPath_joinSegs p (hval p hp).1 (fun s hs => ((hval p hp).2 s hs).2.1)
    rw [hsp] at hlt hbe
    exact ⟨p, hp, i + 1, by omega, hlt, by rw [hbe]; rfl⟩
  have hfile_rel : ∀ a : FileSuggestion,
      a ∈ (buildCache root (paths.map joinSegs) t).files →
      ∃ q ∈ paths, a.relativePath = joinSegs q := by
    intro a ha
    obtain ⟨q, hq, hae⟩ := buildCache_files_mem ha
    exact ⟨q, hq, by rw [hae]; rfl⟩
  constructor
  · intro a ha b hb hat hbt heq
    have hac := searchCandidates_mem root _ query currentPath a
      (filterFromCache_mem _ _ _ _ a ha)
    have hbc := searchCandidates_mem root _ query currentPath b
      (filterFromCache_mem _ _ _ _ b hb)
    rcases hac with ⟨hamem, _, _⟩ | ⟨f, hf, hsc, i, hlt, hae, hmap, hnm⟩
    · rcases hbc with ⟨hbmem, _, _⟩ | hbfold
      · obtain ⟨q, hq, hbe⟩ := buildCache_files_mem hbmem
        rw [hbe] at hbt
        simp [buildEntry] at hbt
      · obtain ⟨p, hp, k, hk0, hk, hbrel⟩ := hfolder_rel b hbfold
        obtain ⟨q, hq, harel⟩ := hfile_rel a hamem
        rw [harel, hbrel] at heq
        exact treeLike_join_ne hval htree hp hq hk0 hk heq
    · rw [hae] at hat
      simp [folderSuggestion] at hat
  · intro a ha b hb hat hbt heq
    unfold getDirectoryContents at ha hb
    by_cases hfb : browseFallsBack (buildCache root (paths.map joinSegs) t) currentPath = true
    · simp only [hfb, if_true] at ha hb
      obtain ⟨entries, hok, e1, he1, hae⟩ := getDirectoryContentsFs_mem ha
      obtain ⟨entries2, hok2, e2, he2, hbe⟩ := getDirectoryContentsFs_mem hb
      rw [hok] at hok2
      injection hok2 with hent
      subst hent
      have hnodup := hfs entries hok
      have hnames : e1.1 = e2.1 := by
        rw [hae, hbe] at heq
        unfold fsEntrySuggestion at heq
        simp only at heq
        by_cases hcp : (currentPath == "") = true
        · rw [if_pos hcp, if_pos hcp] at heq
          exact heq
        · rw [if_neg hcp, if_neg hcp] at heq
          exact joinPath_inj_right (by simpa using hcp) heq
      have he12 : e1 = e2 := List.inj_on_of_nodup_map hnodup he1 he2 hnames
      rw [hae] at hat
      rw [hbe, ← he12] at hbt
      rw [hat] at hbt
      simp at hbt
    · have hfb2 : browseFallsBack (buildCache root (paths.map joinSegs) t) currentPath
          = false := by
        rcases hb2 : browseFallsBack (buildCache root (paths.map joinSegs) t) currentPath
        · rfl
        · exact absurd hb2 hfb
      simp only [hfb2, Bool.false_eq_true, if_false] at ha hb
      unfold browseFromCache at ha hb
      simp only at ha hb
      rcases List.mem_append.mp ha with haf | has
      · rcases List.mem_map.mp haf with ⟨pp, _, hape⟩
        rw [← hape] at hat
        simp [folderSuggestion] at hat
      · have hamem : a ∈ (buildCache root (paths.map joinSegs) t).files := by
          unfold jsSortBy at has
          have h2 := (List.mem_insertionSort _).mp has
          rcases List.mem_filterMap.mp h2 with ⟨relPath, _, hfind⟩
          exact List.mem_of_find?_eq_some hfind
        obtain ⟨q, hq, harel⟩ := hfile_rel a hamem
        rcases List.mem_append.mp hb with hbf | hbs
        · rcases List.mem_map.mp hbf with ⟨subdir, hsub, hbpe⟩
          have hsubmem : subdir ∈ browseSubdirs (buildCache root (paths.map joinSegs) t)
              currentPath := by
            unfold jsSortBy at hsub
            exact (List.mem_insertionSort _).mp hsub
          obtain ⟨p, hp, k, hk0, hk, hse⟩ := browseSubdirs_mem hval hsubmem
          have hbrel : b.relativePath = joinSegs (p.take k) := by
            rw [← hbpe, ← hse]
            rfl
          rw [harel, hbrel] at heq
          exact treeLike_join_ne hval htree hp hq hk0 hk heq
        · have hbmem : b ∈ (buildCache root (paths.map joinSegs) t).files := by
            unfold jsSortBy at hbs
            have h2 := (List.mem_insertionSort _).mp hbs
            rcases List.mem_filterMap.mp h2 with ⟨relPath, _, hfind⟩
            exact List.mem_of_find?_eq_some hfind
          obtain ⟨q2, hq2, hbe⟩ := buildCache_files_mem hbmem
          rw [hbe] at hbt
          simp [buildEntry] at hbt

/-- Witness for claim C4 at a concrete workspace and search: in the results
for query "a" over the one-file workspace a/x.ts, the file entry and the
folder entry have distinct relative paths. -/
theorem no_file_folder_collision_witness :
    (buildEntry "/w" (joinSegs ["a", "x.ts"])).relativePath ≠
      (folderSuggestion "/w" "a" "a").relativePath :=
  (no_file_folder_collision "/w" [["a", "x.ts"]] 0
    (by
      intro p hp
      simp only [List.mem_singleton] at hp
      subst hp
      exact ⟨by simp, by decide⟩)
    (by
      intro p hp q hq h
      simp only [List.mem_singleton] at hp hq
      rw [hp, hq])
    "a" "" (Except.ok []) (by intro entries h; injection h with h2; rw [← h2]; simp)).1
    (buildEntry "/w" (joinSegs ["a", "x.ts"])) (by decide)
    (folderSuggestion "/w" "a" "a") (by decide) (by decide) (by decide)

/-! Claim C1: spec-side uncapped candidate collection. The spec describes the
candidate set as every deduplicated in-scope match, ranked, then truncated.
These definitions follow the spec words (no early cap during the scans), to be
compared with the source-side `collectFileMatches`/`collectFolderMatches`. -/

/-- Spec-side file scan: like `collectFileMatches` but without the
`MAX_RESULTS` early stop. -/
def specFileScan (lowerQuery currentPath : String) :
    List FileSuggestion → List FileSuggestion → List String →
    List FileSuggestion × List String
  | [], results, seen => (results, seen)
  | f :: rest, results, seen =>
    if !(scopePasses currentPath f.relativePath) then
      specFileScan lowerQuery currentPath rest results seen
    else if fileHit lowerQuery f && !(seen.contains f.relativePath) then
      specFileScan lowerQuery currentPath rest (results ++ [f]) (seen ++ [f.relativePath])
    else specFileScan lowerQuery currentPath rest results seen

/-- Spec-side folder scan: like `collectFolderMatches` but without the
`MAX_RESULTS` early stop. -/
def specFolderScan (root lowerQuery currentPath : String)
    (dmap : List (String × List FileSuggestion)) :
    List FileSuggestion → List FileSuggestion × List String →
    List FileSuggestion × List String
  | [], acc => acc
  | f :: rest, acc =>
    if !(scopePasses currentPath f.relativePath) then
      specFolderScan root lowerQuery currentPath dmap rest acc
    else
      specFolderScan root lowerQuery currentPath dmap rest
        (folderScanFile root lowerQuery dmap (splitPath f.relativePath) acc)

/-- Spec-side candidate list: every deduplicated in-scope file match followed
by every deduplicated folder match, with no cap during collection. -/
def specCandidates (root : String) (cache : CachedFileData)
    (query currentPath : String) : List FileSuggestion :=
  let lowerQuery := lowerStr query
  let fileAcc := specFileScan lowerQuery currentPath cache.files [] []
  (specFolderScan root lowerQuery currentPath cache.directoryMap
      cache.files (fileAcc.1, [])).1

theorem specFileScan_acc (lq cp : String) : ∀ (files results : List FileSuggestion)
    (seen : List String), ∃ t u, specFileScan lq cp files results seen =
      (results ++ t, seen ++ u) ∧ t.length = u.length := by
  intro files
  induction files with
  | nil => intro results seen; exact ⟨[], [], by simp [specFileScan]⟩
  | cons f rest ih =>
    intro results seen
    by_cases hs : (!(scopePasses cp f.relativePath)) = true
    · obtain ⟨t, u, he, hl⟩ := ih results seen
      exact ⟨t, u, by rw [specFileScan, if_pos hs]; exact he, hl⟩
    · by_cases hm : (fileHit lq f && !(seen.contains f.relativePath)) = true
      · obtain ⟨t, u, he, hl⟩ := ih (results ++ [f]) (seen ++ [f.relativePath])
        refine ⟨[f] ++ t, [f.relativePath] ++ u, ?_, by simp [hl]⟩
        rw [specFileScan, if_neg hs, if_pos hm, he]
        simp
      · obtain ⟨t, u, he, hl⟩ := ih results seen
        exact ⟨t, u, by rw [specFileScan, if_neg hs, if_neg hm]; exact he, hl⟩

theorem collectFileMatches_uncapped (lq cp : String) :
    ∀ (files results : List FileSuggestion) (seen : List String),
    (specFileScan lq cp files results seen).1.length ≤ MAX_RESULTS →
    collectFileMatches lq cp files results seen = specFileScan lq cp files results seen := by
  intro files
  induction files with
  | nil => intro results seen _; rfl
  | cons f rest ih =>
    intro results seen hlen
    by_cases hs : (!(scopePasses cp f.relativePath)) = true
    · rw [collectFileMatches, if_pos hs, specFileScan, if_pos hs]
      rw [specFileScan, if_pos hs] at hlen
      exact ih results seen hlen
    · by_cases hm : (fileHit lq f && !(seen.contains f.relativePath)) = true
      · have hspec : specFileScan lq cp (f :: rest) results seen =
            specFileScan lq cp rest (results ++ [f]) (seen ++ [f.relativePath]) := by
          rw [specFileScan, if_neg hs, if_pos hm]
        rw [hspec] at hlen
        rw [collectFileMatches, if_neg hs]
        simp only [hm, if_true]
        by_cases hcap : MAX_RESULTS ≤ (results ++ [f]).length
        · rw [if_pos hcap, hspec]
          obtain ⟨t, u, he, hl⟩ := specFileScan_acc lq cp rest (results ++ [f])
            (seen ++ [f.relativePath])
          rw [he] at hlen ⊢
          simp only [List.length_append] at hlen
          have ht : t = [] := List.eq_nil_of_length_eq_zero (by
            simp only [List.length_append] at hcap ⊢
            omega)
          have hu : u = [] := List.eq_nil_of_length_eq_zero (by
            rw [← hl, ht]; rfl)
          rw [ht, hu]
          simp
        · rw [if_neg hcap, hspec]
          exact ih (results ++ [f]) (seen ++ [f.relativePath]) hlen
      · have hm2 : (fileHit lq f && !(seen.contains f.relativePath)) = false := by
          rcases h2 : fileHit lq f && !(seen.contains f.relativePath)
          · rfl
          · exact absurd h2 hm
        have hspec : specFileScan lq cp (f :: rest) results seen =
            specFileScan lq cp rest results seen := by
          rw [specFileScan, if_neg hs, if_neg hm]
        rw [hspec] at hlen
        rw [collectFileMatches, if_neg hs, hm2]
        show (if MAX_RESULTS ≤ results.length then (results, seen)
            else collectFileMatches lq cp rest results seen) =
          specFileScan lq cp (f :: rest) results seen
        by_cases hcap : MAX_RESULTS ≤ results.length
        · rw [if_pos hcap, hspec]
          obtain ⟨t, u, he, hl⟩ := specFileScan_acc lq cp rest results seen
          rw [he] at hlen ⊢
          simp only [List.length_append] at hlen
          have ht : t = [] := List.eq_nil_of_length_eq_zero (by omega)
          have hu : u = [] := List.eq_nil_of_length_eq_zero (by
            rw [← hl, ht]; rfl)
          rw [ht, hu]
          simp
        · rw [if_neg hcap, hspec]
          exact ih results seen hlen

theorem folderScanFile_acc (root lq : String)
    (dmap : List (String × List FileSuggestion)) (parts : List String) :
    ∀ acc : List FileSuggestion × List String,
    ∃ t u, folderScanFile root lq dmap parts acc = (acc.1 ++ t, acc.2 ++ u) ∧
      t.length = u.length := by
  unfold folderScanFile
  generalize List.range (parts.length - 1) = idxs
  induction idxs with
  | nil => intro acc; exact ⟨[], [], by simp⟩
  | cons i rest ih =>
    intro acc
    rw [List.foldl_cons]
    by_cases hh : mapHas dmap (joinSegs (parts.take (i + 1))) = true
    · by_cases hm : (strContains (lowerStr (parts.getD i "")) lq &&
          !(acc.2.contains (joinSegs (parts.take (i + 1))))) = true
      · obtain ⟨t, u, he, hl⟩ := ih
          (acc.1 ++ [folderSuggestion root (joinSegs (parts.take (i + 1))) (parts.getD i "")],
           acc.2 ++ [joinSegs (parts.take (i + 1))])
        refine ⟨[folderSuggestion root (joinSegs (parts.take (i + 1))) (parts.getD i "")] ++ t,
          [joinSegs (parts.take (i + 1))] ++ u, ?_, by simp [hl]⟩
        simp only [hh, if_true, hm]
        rw [he]
        simp
      · obtain ⟨t, u, he, hl⟩ := ih acc
        refine ⟨t, u, ?_, hl⟩
        simp only [hh, if_true, hm, if_false]
        exact he
    · obtain ⟨t, u, he, hl⟩ := ih acc
      refine ⟨t, u, ?_, hl⟩
      have hh2 : mapHas dmap (joinSegs (parts.take (i + 1))) = false := by
        rcases h2 : mapHas dmap (joinSegs (parts.take (i + 1)))
        · rfl
        · exact absurd h2 hh
      simp only [hh2, Bool.false_eq_true, if_false]
      exact he

theorem specFolderScan_acc (root lq cp : String)
    (dmap : List (String × List FileSuggestion)) :
    ∀ (files : List FileSuggestion) (acc : List FileSuggestion × List String),
    ∃ t u, specFolderScan root lq cp dmap files acc = (acc.1 ++ t, acc.2 ++ u) ∧
      t.length = u.length := by
  intro files
  induction files with
  | nil => intro acc; exact ⟨[], [], by simp [specFolderScan]⟩
  | cons f rest ih =>
    intro acc
    by_cases hs : (!(scopePasses cp f.relativePath)) = true
    · obtain ⟨t, u, he, hl⟩ := ih acc
      exact ⟨t, u, by rw [specFolderScan, if_pos hs]; exact he, hl⟩
    · obtain ⟨t1, u1, he1, hl1⟩ := folderScanFile_acc root lq dmap
        (splitPath f.relativePath) acc
      obtain ⟨t2, u2, he2, hl2⟩ := ih
        (folderScanFile root lq dmap (splitPath f.relativePath) acc)
      refine ⟨t1 ++ t2, u1 ++ u2, ?_, by simp [hl1, hl2]⟩
      rw [specFolderScan, if_neg hs, he2, he1]
      simp

theorem collectFolderMatches_uncapped (root lq cp : String)
    (dmap : List (String × List FileSuggestion)) :
    ∀ (files : List FileSuggestion) (acc : List FileSuggestion × List String),
    (specFolderScan root lq cp dmap files acc).1.length ≤ MAX_RESULTS →
    collectFolderMatches root lq cp dmap files acc =
      specFolderScan root lq cp dmap files acc := by
  intro files
  induction files with
  | nil => intro acc _; rfl
  | cons f rest ih =>
    intro acc hlen
    by_cases hcap : MAX_RESULTS ≤ acc.1.length
    · rw [collectFolderMatches, if_pos hcap]
      obtain ⟨t, u, he, hl⟩ := specFolderScan_acc root lq cp dmap (f :: rest) acc
      rw [he] at hlen ⊢
      simp only [List.length_append] at hlen
      have ht : t = [] := List.eq_nil_of_length_eq_zero (by omega)
      have hu : u = [] := List.eq_nil_of_length_eq_zero (by rw [← hl, ht]; rfl)
      rw [ht, hu]
      simp
    · rw [collectFolderMatches, if_neg hcap]
      by_cases hs : (!(scopePasses cp f.relativePath)) = true
      · rw [if_pos hs, specFolderScan, if_pos hs]
        rw [specFolderScan, if_pos hs] at hlen
        exact ih acc hlen
      · rw [if_neg hs, specFolderScan, if_neg hs]
        rw [specFolderScan, if_neg hs] at hlen
        exact ih (folderScanFile root lq dmap (splitPath f.relativePath) acc) hlen

/-- Claim C1 (amended): the truncation-after-ranking contract holds exactly
when at most `MAX_RESULTS` candidates match. Under that bound the source scans
agree with the uncapped spec-side scans and `filterFromCache` returns the
whole candidate set sorted by the ranking comparator, untruncated. When more
than 50 candidates match the contract fails: the file scan breaks at 50
candidates in cache-scan order before the sort runs (see the separate
counterexample, where a top-ranked exact-name match is dropped). -/
theorem truncation_after_ranking_amended (root : String) (cache : CachedFileData)
    (query currentPath : String)
    (h : (specCandidates root cache query currentPath).length ≤ MAX_RESULTS) :
    filterFromCache root cache query currentPath =
      jsSortBy (rankCmp (lowerStr query)) (specCandidates root cache query currentPath) := by
  have hfile : (specFileScan (lowerStr query) currentPath cache.files [] []).1.length ≤
      MAX_RESULTS := by
    obtain ⟨t, u, he, _⟩ := specFolderScan_acc root (lowerStr query) currentPath
      cache.directoryMap cache.files
      ((specFileScan (lowerStr query) currentPath cache.files [] []).1, [])
    unfold specCandidates at h
    simp only at h
    rw [he] at h
    simp only [List.length_append] at h
    omega
  have hfeq : collectFileMatches (lowerStr query) currentPath cache.files [] [] =
      specFileScan (lowerStr query) currentPath cache.files [] [] :=
    collectFileMatches_uncapped (lowerStr query) currentPath cache.files [] [] hfile
  have hcand : searchCandidates root cache query currentPath =
      specCandidates root cache query currentPath := by
    unfold searchCandidates specCandidates
    simp only
    rw [hfeq]
    rw [collectFolderMatches_uncapped root (lowerStr query) currentPath
      cache.directoryMap cache.files
      ((specFileScan (lowerStr query) currentPath cache.files [] []).1, [])]
    unfold specCandidates at h
    simp only at h
    exact h
  unfold filterFromCache
  rw [hcand]
  refine List.take_of_length_le ?_
  unfold jsSortBy
  rw [List.length_insertionSort]
  exact h

/-- Witness for the amended claim C1 at a concrete two-file workspace. -/
theorem truncation_after_ranking_amended_witness :
    (specCandidates "/w" (buildCache "/w" ["a.ts", "b/a2.ts"] 0) "a" "").length ≤
        MAX_RESULTS ∧
      filterFromCache "/w" (buildCache "/w" ["a.ts", "b/a2.ts"] 0) "a" "" =
        jsSortBy (rankCmp (lowerStr "a"))
          (specCandidates "/w" (buildCache "/w" ["a.ts", "b/a2.ts"] 0) "a" "") :=
  ⟨by decide,
   truncation_after_ranking_amended "/w" (buildCache "/w" ["a.ts", "b/a2.ts"] 0) "a" ""
     (by decide)⟩

end ClaudeInputEnhancer
